import Mathlib

/-!
# cmdline: a byte-oriented command line interpreter

Shallow embedding of `src/cmdline.c` / `src/cmdline.h`.

Modelling conventions

* A `char` is a `Nat` (the byte value delivered by the transport); the code does no
  arithmetic on characters, only equality tests and stores.
* `uint16_t receive_char_index` is a `Nat`; its increment is taken modulo `2 ^ 16`.
  The comparison `receive_char_index >= receive_buffer_size - 1` is evaluated in `int`
  (both operands are promoted), so it is modelled over `Int`.
* The caller-owned memory and the transport live in `Env`: `buf` is the memory the
  `receive_buffer` pointer refers to, `rx` the bytes `rx_char` will still deliver (it
  reports "no data" when the list is empty), `tx` the bytes written so far through
  `tx_char`, and `calls` the log of command handler invocations.
* Pointers whose pointee lives in `Env` are kept in the configuration as a `Bool`
  (`true` = non-NULL). The command table pointer is `none` (NULL) or the entries it
  points to; an entry whose `pcCmd` is `none` is the sentinel.
* `ppcArgv` maps a slot number to the offset (into the receive buffer) the slot points to.
* A command handler is a function of `argc`, the argument vector and the buffer memory;
  it returns its status code and the bytes it writes through the transport itself.
-/

set_option autoImplicit false

namespace Cmdline

/-! ## Constants -/

def CHARACTER_BACKSPACE : Nat := 0x08
def CHARACTER_DELETE : Nat := 127
def CHARACTER_SPACE : Nat := 0x20
def CHARACTER_RETURN : Nat := 13
def CHARACTER_NEWLINE : Nat := 10

def CMDLINE_MAX_ARGS : Nat := 8

inductive cmdline_err_t where
  | CMDLINE_OK
  | CMDLINE_ERROR
  deriving DecidableEq, Repr

open cmdline_err_t

def CMDLINE_EOL_CR : Nat := 0
def CMDLINE_EOL_LF : Nat := 1

def CMDLINE_CMD_OK : Nat := 0
def CMDLINE_INVALID_ARG : Nat := 1
def CMDLINE_TOO_FEW_ARGS : Nat := 2
def CMDLINE_TOO_MANY_ARGS : Nat := 3
def CMDLINE_BAD_CMD : Nat := 4
def CMDLINE_NOT_INITIALIZED : Nat := 5
def CMDLINE_TOTAL_STATUS : Nat := 6

/-! ## Data model -/

/-- The type `pfnCmdLine`: `argc`, the argument vector (slot to buffer offset) and the
buffer memory give the returned status and the bytes the handler transmits itself. -/
abbrev pfnCmdLine := Nat → (Nat → Nat) → List Nat → Nat × List Nat

structure cmdline_entry_t where
  pcCmd : Option (List Nat)
  pfnCmd : pfnCmdLine

structure cmdline_config_t where
  cmdline_entry : Option (List cmdline_entry_t)
  receive_buffer : Bool
  receive_buffer_size : Nat
  eol : Nat
  tx_char : Bool
  rx_char : Bool

structure cmdline_t where
  ppcArgv : Nat → Nat
  total_argc_count : Nat
  initialized : Bool
  receive_char_index : Nat
  char_eol : Nat
  char_ignore : Nat
  config : cmdline_config_t

/-- One handler invocation: index of the table entry whose handler ran, the `argc` it got,
the nine argument slots and the buffer memory at that moment. -/
structure call_t where
  entry : Nat
  argc : Nat
  argv : List Nat
  buf : List Nat
  deriving DecidableEq, Repr

structure Env where
  buf : List Nat
  rx : List Nat
  tx : List Nat
  calls : List call_t
  deriving DecidableEq, Repr

/-- Bytes of a string literal. -/
def str (s : String) : List Nat := s.toList.map Char.toNat

/-- The C string starting at offset `off` of memory `m`: the bytes before the first NUL. -/
def c_str (m : List Nat) (off : Nat) : List Nat := (m.drop off).takeWhile (fun b => b != 0)

/-- The array `cmdline_status_msg`. -/
def cmdline_status_msg (status : Nat) : List Nat :=
  match status with
  | 0 => str "CMD OK"
  | 1 => str "INVALID ARG"
  | 2 => str "TOO FEW ARGS"
  | 3 => str "TOO MANY ARGS"
  | 4 => str "BAD CMD"
  | 5 => str "NOT INITIALIZED"
  | _ => []

/-! ## Private functions -/

def set_eol_character (cmdline : cmdline_t) : cmdline_t :=
  if cmdline.config.eol = CMDLINE_EOL_CR then
    { cmdline with char_eol := CHARACTER_RETURN, char_ignore := CHARACTER_NEWLINE }
  else
    { cmdline with char_eol := CHARACTER_NEWLINE, char_ignore := CHARACTER_RETURN }

def is_end_of_character_or_buffer_detected (cmdline : cmdline_t) (byte : Nat) : Bool :=
  decide ((cmdline.receive_char_index : Int) ≥ (cmdline.config.receive_buffer_size : Int) - 1)
    || decide (byte = cmdline.char_eol)

/-- The loop `for (i = ...; i < size; i++) receive_buffer[i] = 0;` with `k` iterations left. -/
def zero_fill (buf : List Nat) (i : Nat) : Nat → List Nat
  | 0 => buf
  | k + 1 => zero_fill (buf.set i 0) (i + 1) k

def terminate_receive_buffer (cmdline : cmdline_t) (buf : List Nat) : List Nat :=
  zero_fill buf cmdline.receive_char_index
    (cmdline.config.receive_buffer_size - cmdline.receive_char_index)

def remove_last_entry_character_data (cmdline : cmdline_t) (buf : List Nat) :
    cmdline_t × List Nat :=
  if cmdline.receive_char_index = 0 then
    (cmdline, buf)
  else
    let idx := cmdline.receive_char_index - 1
    ({ cmdline with receive_char_index := idx }, buf.set idx 0)

def add_received_byte_to_serial_msg (cmdline : cmdline_t) (buf : List Nat) (byte : Nat) :
    cmdline_t × List Nat :=
  ({ cmdline with receive_char_index := (cmdline.receive_char_index + 1) % 65536 },
    buf.set cmdline.receive_char_index byte)

/-- Result of the receive loop: completion flag, session, buffer memory, echoed bytes
(in order) and the bytes left unread. -/
structure rx_result where
  complete : Bool
  cmdline : cmdline_t
  buf : List Nat
  echo : List Nat
  rest : List Nat

/-- The `while (rx_char(&received_byte) == true)` loop over the pending bytes. -/
def rx_loop (cmdline : cmdline_t) (buf : List Nat) (echo : List Nat) :
    List Nat → rx_result
  | [] => ⟨false, cmdline, buf, echo, []⟩
  | received_byte :: pending =>
    let echo1 := echo ++ [received_byte]
    if is_end_of_character_or_buffer_detected cmdline received_byte then
      ⟨true, cmdline, terminate_receive_buffer cmdline buf, echo1, pending⟩
    else if received_byte = CHARACTER_DELETE ∨ received_byte = CHARACTER_BACKSPACE then
      let r := remove_last_entry_character_data cmdline buf
      rx_loop r.1 r.2 echo1 pending
    else if received_byte ≠ cmdline.char_ignore then
      let r := add_received_byte_to_serial_msg cmdline buf received_byte
      rx_loop r.1 r.2 echo1 pending
    else
      rx_loop cmdline buf echo1 pending

def process_rx_msg_complete (cmdline : cmdline_t) (env : Env) : Bool × cmdline_t × Env :=
  let r := rx_loop cmdline env.buf [] env.rx
  (r.complete, r.cmdline, { env with buf := r.buf, rx := r.rest, tx := env.tx ++ r.echo })

def is_argc_start_found (buf : List Nat) (msg_index : Nat) : Bool × List Nat :=
  if msg_index = 0 then
    (true, buf)
  else if buf.getD msg_index 0 = CHARACTER_SPACE then
    (false, buf.set msg_index 0)
  else if buf.getD (msg_index - 1) 0 = 0 then
    (true, buf)
  else
    (false, buf)

/-- State of the tokenizer loop. -/
structure argc_state where
  buf : List Nat
  ppcArgv : Nat → Nat
  argc_counter : Nat

/-- The `for (i = 0; i < receive_char_index; i++)` loop of `get_argc_count_from_cmd_msg`
at index `i` with `k` iterations left. -/
def argc_loop : Nat → Nat → argc_state → argc_state
  | 0, _, st => st
  | k + 1, i, st =>
    let r := is_argc_start_found st.buf i
    if r.1 then
      if st.argc_counter ≥ CMDLINE_MAX_ARGS then
        { st with buf := r.2 }
      else
        argc_loop k (i + 1)
          { buf := r.2
            ppcArgv := fun j => if j = st.argc_counter then i else st.ppcArgv j
            argc_counter := (st.argc_counter + 1) % 256 }
    else
      argc_loop k (i + 1) { st with buf := r.2 }

def get_argc_count_from_cmd_msg (cmdline : cmdline_t) (buf : List Nat) :
    Nat × cmdline_t × List Nat :=
  let st := argc_loop cmdline.receive_char_index 0 ⟨buf, cmdline.ppcArgv, 0⟩
  (st.argc_counter, { cmdline with ppcArgv := st.ppcArgv }, st.buf)

/-- The nine slots of `ppcArgv`. -/
def argv_slots (cmdline : cmdline_t) : List Nat :=
  (List.range (CMDLINE_MAX_ARGS + 1)).map cmdline.ppcArgv

/-- The `while (psCmdEntry->pcCmd)` scan; `idx` is the position of the head of `table`
in the whole table. The end of the list is read as the sentinel. -/
def scan_cmd_entries (cmdline : cmdline_t) (argc_count : Nat) (env : Env) :
    List cmdline_entry_t → Nat → Nat × Env
  | [], _ => (CMDLINE_BAD_CMD, env)
  | psCmdEntry :: table, idx =>
    match psCmdEntry.pcCmd with
    | none => (CMDLINE_BAD_CMD, env)
    | some name =>
      if c_str env.buf (cmdline.ppcArgv 0) = c_str name 0 then
        let r := psCmdEntry.pfnCmd argc_count cmdline.ppcArgv env.buf
        (r.1, { env with
                  tx := env.tx ++ r.2
                  calls := env.calls ++ [⟨idx, argc_count, argv_slots cmdline, env.buf⟩] })
      else
        scan_cmd_entries cmdline argc_count env table (idx + 1)

def execute_matching_cmd_entry_return_status (cmdline : cmdline_t) (argc_count : Nat)
    (env : Env) : Nat × Env :=
  scan_cmd_entries cmdline argc_count env (cmdline.config.cmdline_entry.getD []) 0

def cmdline_process (cmdline : cmdline_t) (env : Env) : Nat × cmdline_t × Env :=
  if cmdline.initialized = false then
    (CMDLINE_NOT_INITIALIZED, cmdline, env)
  else
    let t := get_argc_count_from_cmd_msg cmdline env.buf
    let env1 := { env with buf := t.2.2 }
    if t.1 = 0 then
      (CMDLINE_TOO_FEW_ARGS, t.2.1, env1)
    else
      let r := execute_matching_cmd_entry_return_status t.2.1 t.1 env1
      (r.1, t.2.1, r.2)

def send_command_line_status (cmdline_status : Nat) (env : Env) : Env :=
  let status := if cmdline_status ≥ CMDLINE_TOTAL_STATUS then CMDLINE_BAD_CMD else cmdline_status
  { env with
      tx := env.tx ++ c_str (cmdline_status_msg status) 0
              ++ [CHARACTER_RETURN, CHARACTER_NEWLINE] }

/-- The call `memset(m, v, n)`. -/
def memset : List Nat → Nat → Nat → List Nat
  | [], _, _ => []
  | b :: m, _, 0 => b :: m
  | _ :: m, v, n + 1 => v :: memset m v n

def clear_receive_buffer (cmdline : cmdline_t) (env : Env) : cmdline_t × Env :=
  ({ cmdline with receive_char_index := 0 },
    { env with buf := memset env.buf 0 cmdline.config.receive_buffer_size })

/-! ## Public functions -/

def cmdline_init (cmdline : Option cmdline_t) (config : Option cmdline_config_t) :
    cmdline_err_t × Option cmdline_t :=
  match cmdline, config with
  | none, _ => (CMDLINE_ERROR, none)
  | some s, none => (CMDLINE_ERROR, some s)
  | some s, some cfg =>
    if s.initialized = true then
      (CMDLINE_OK, some s)
    else if cfg.cmdline_entry.isNone ∨ cfg.receive_buffer = false ∨ cfg.rx_char = false ∨
        cfg.tx_char = false then
      (CMDLINE_ERROR, some s)
    else
      (CMDLINE_OK, some { set_eol_character { s with config := cfg } with initialized := true })

def cmdline_process_msg (cmdline : Option cmdline_t) (env : Env) :
    cmdline_err_t × Option cmdline_t × Env :=
  match cmdline with
  | none => (CMDLINE_ERROR, none, env)
  | some s =>
    if s.initialized = false then
      (CMDLINE_ERROR, some s, env)
    else
      let r := process_rx_msg_complete s env
      if r.1 = false then
        (CMDLINE_OK, some r.2.1, r.2.2)
      else
        let p := cmdline_process r.2.1 r.2.2
        let env1 := send_command_line_status p.1 p.2.2
        let c := clear_receive_buffer p.2.1 env1
        (CMDLINE_OK, some c.1, c.2)

/-! ## Specification-side definitions -/

/-- Edit rule of the line editor, in the words of the specification: DELETE and BACKSPACE
remove the last kept byte if there is one, the companion byte is discarded, every other
byte is appended. -/
def edit_step (ignore : Nat) (kept : List Nat) (b : Nat) : List Nat :=
  if b = 127 ∨ b = 8 then kept.dropLast
  else if b = ignore then kept
  else kept ++ [b]

/-- The edits of `s` applied left to right, starting from the empty line. -/
def apply_edits (ignore : Nat) (s : List Nat) : List Nat :=
  s.foldl (edit_step ignore) []

/-! ## Sample data used to instantiate the theorems -/

/-- A handler that accepts exactly one argument and writes nothing. -/
def sample_handler : pfnCmdLine :=
  fun argc _ _ => (if argc = 1 then CMDLINE_CMD_OK else CMDLINE_INVALID_ARG, [])

def sample_table : List cmdline_entry_t :=
  [⟨some (str "cmd"), sample_handler⟩,
   ⟨some (str "x"), fun _ _ _ => (7, [])⟩,
   ⟨some (str "cmd"), fun _ _ _ => (CMDLINE_TOO_MANY_ARGS, [])⟩,
   ⟨none, sample_handler⟩]

def sample_config : cmdline_config_t :=
  { cmdline_entry := some sample_table
    receive_buffer := true
    receive_buffer_size := 16
    eol := CMDLINE_EOL_CR
    tx_char := true
    rx_char := true }

/-- A zeroed, not yet initialized session. -/
def blank_session : cmdline_t :=
  { ppcArgv := fun _ => 0
    total_argc_count := 0
    initialized := false
    receive_char_index := 0
    char_eol := 0
    char_ignore := 0
    config := ⟨none, false, 0, 0, false, false⟩ }

/-- The session `cmdline_init` produces from `blank_session` and `sample_config`. -/
def sample_session : cmdline_t :=
  { blank_session with
    initialized := true
    char_eol := CHARACTER_RETURN
    char_ignore := CHARACTER_NEWLINE
    config := sample_config }

/-- Caller memory of 16 stale bytes with `rx` pending. -/
def sample_env (rx : List Nat) : Env :=
  { buf := List.replicate 16 85, rx := rx, tx := [], calls := [] }

/-- The sample session after the ten bytes of `cmd  a   b` were received. -/
def sample_session_10 : cmdline_t := { sample_session with receive_char_index := 10 }

/-! ## Tokenizer and dispatcher: specification-side definitions and proof devices -/

/-- The words of a line: its maximal runs of non-space bytes. -/
def words (line : List Nat) : List (List Nat) :=
  (line.splitOnP (fun b => b == 32)).filter (fun w => !w.isEmpty)

/-- The first `argc` arguments read as NUL-terminated strings. -/
def argv_strings (argc : Nat) (ppcArgv : Nat → Nat) (buf : List Nat) : List (List Nat) :=
  (List.range argc).map (fun k => c_str buf (ppcArgv k))

/-- Indices at which the tokenizer finds a token start in `l`, whose first byte sits at
index `i` (with `i > 0`) and is preceded by the already processed byte `prev`. -/
def token_starts : Nat → List Nat → Nat → List Nat
  | _, [], _ => []
  | prev, b :: l, i =>
    if b = 32 then token_starts 0 l (i + 1)
    else if prev = 0 then i :: token_starts b l (i + 1)
    else token_starts b l (i + 1)

/-- Storing the offsets `xs` into consecutive argument slots from slot `k` on. -/
def write_slots (argv : Nat → Nat) : Nat → List Nat → Nat → Nat
  | _, [] => argv
  | k, x :: xs => write_slots (fun j => if j = k then x else argv j) (k + 1) xs

/-- A space becomes the terminator, any other byte is kept. -/
def space_to_nul (b : Nat) : Nat := if b = 32 then 0 else b

/-- The table entries before the null-name sentinel. -/
def entries_before_sentinel (table : List cmdline_entry_t) : List cmdline_entry_t :=
  table.takeWhile (fun e => e.pcCmd.isSome)

/-- strcmp equality of a command name and the first argument. -/
abbrev name_matches (name : List Nat) (cmdline : cmdline_t) (buf : List Nat) : Prop :=
  c_str name 0 = c_str buf (cmdline.ppcArgv 0)

/-- The sample environment holding the tokenized line `cmd a`. -/
def env_cmd_a : Env :=
  { sample_env [] with buf := str "cmd" ++ 0 :: 97 :: List.replicate 11 0 }

/-- The sample environment holding the tokenized line `zz`. -/
def env_zz : Env :=
  { sample_env [] with buf := str "zz" ++ List.replicate 14 0 }

/-- The six phrases of the status vocabulary. -/
def status_vocabulary : List (List Nat) :=
  [str "CMD OK", str "INVALID ARG", str "TOO FEW ARGS", str "TOO MANY ARGS", str "BAD CMD",
   str "NOT INITIALIZED"]

/-- The end-of-line pair of an initialized session: `(CR, LF)` or `(LF, CR)`. -/
def eol_configured (cmdline : cmdline_t) : Prop :=
  (cmdline.char_eol = CHARACTER_RETURN ∧ cmdline.char_ignore = CHARACTER_NEWLINE) ∨
  (cmdline.char_eol = CHARACTER_NEWLINE ∧ cmdline.char_ignore = CHARACTER_RETURN)

/-- An ordinary byte: not the end-of-line byte, not the companion byte, not BACKSPACE and
not DELETE. -/
def ordinary (cmdline : cmdline_t) (b : Nat) : Prop :=
  b ≠ cmdline.char_eol ∧ b ≠ cmdline.char_ignore ∧ b ≠ CHARACTER_BACKSPACE ∧
    b ≠ CHARACTER_DELETE

/-- The sample session with a full line of fifteen bytes `a` in its sixteen byte buffer. -/
def full_session : cmdline_t := { sample_session with receive_char_index := 15 }

/-- Caller memory holding fifteen bytes `a` and one stale byte, with `rx` pending. -/
def full_env (rx : List Nat) : Env :=
  { buf := List.replicate 15 97 ++ [85], rx := rx, tx := [], calls := [] }

/-- The sample session configured for the end-of-line mode LF. -/
def sample_session_lf : cmdline_t :=
  { sample_session with
    char_eol := CHARACTER_NEWLINE
    char_ignore := CHARACTER_RETURN
    config := { sample_config with eol := CMDLINE_EOL_LF } }

/-- A sequence of `cmdline_process_msg` calls on one session; before each call the bytes of
one batch arrive at the transport. -/
def process_calls : cmdline_t → Env → List (List Nat) → cmdline_t × Env
  | s, env, [] => (s, env)
  | s, env, batch :: more =>
    match cmdline_process_msg (some s) { env with rx := env.rx ++ batch } with
    | (_, some s2, env2) => process_calls s2 env2 more
    | (_, none, env2) => (s, env2)

/-- Caller memory whose sixteen buffer bytes are followed by two foreign bytes. -/
def guarded_env : Env :=
  { buf := List.replicate 16 85 ++ [201, 202], rx := [], tx := [], calls := [] }

instance (cmdline : cmdline_t) (b : Nat) : Decidable (ordinary cmdline b) := by
  unfold ordinary
  infer_instance

/-- The byte the tokenizer finds before the position that follows `l`: the last byte of
`l` after the space rewrite, or `prev` when `l` is empty. -/
def last_seen : Nat → List Nat → Nat
  | prev, [] => prev
  | _, b :: l => last_seen (space_to_nul b) l

/-- The sample session with a buffer of 32 bytes after the nineteen bytes of
`c 2 3 4 5 6 7 8 9 a` were received. -/
def long_line_session : cmdline_t :=
  { sample_session with
    receive_char_index := 19
    config := { sample_config with receive_buffer_size := 32 } }

/-- The receive buffer when the line `line` filling all but the last slot is complete: the
line, the terminator in the last slot, and the memory beyond the capacity as it was. -/
def full_line_buf (env : Env) (line : List Nat) : List Nat :=
  line ++ 0 :: env.buf.drop (line.length + 1)

/-- The tokenizer run on the completed full line `line`: the returned count, the session
with its argument slots and the rewritten buffer. -/
def tokenized (s : cmdline_t) (env : Env) (line : List Nat) : Nat × cmdline_t × List Nat :=
  get_argc_count_from_cmd_msg { s with receive_char_index := line.length }
    (full_line_buf env line)

/-- The dispatcher run on the tokenized full line `line`, in the environment the receive
loop left after echoing `line` and the completing byte `b`. -/
def dispatched (s : cmdline_t) (env : Env) (line : List Nat) (b : Nat) (rest : List Nat) :
    Nat × Env :=
  execute_matching_cmd_entry_return_status (tokenized s env line).2.1 (tokenized s env line).1
    { env with buf := (tokenized s env line).2.2, rx := rest, tx := env.tx ++ line ++ [b] }

/-- The sample environment with the fifteen byte line `cmd a b c d e f`, one more byte `x`
and two further bytes pending. -/
def overlong_env : Env := sample_env (str "cmd a b c d e f" ++ 120 :: [121, 122])

/-! ## Helper lemmas -/

theorem take_set_of_le (l : List Nat) (a : Nat) {i j : Nat} (h : j ≤ i) :
    (l.set i a).take j = l.take j := by
  rw [List.set_take]
  apply List.set_eq_of_length_le
  simp
  omega

theorem zero_fill_length (k : Nat) : ∀ (buf : List Nat) (i : Nat),
    (zero_fill buf i k).length = buf.length := by
  induction k with
  | zero => intro buf i; rfl
  | succ k ih => intro buf i; simp [zero_fill, ih]

theorem zero_fill_take (k : Nat) : ∀ (buf : List Nat) (i j : Nat), j ≤ i →
    (zero_fill buf i k).take j = buf.take j := by
  induction k with
  | zero => intro buf i j _; rfl
  | succ k ih =>
    intro buf i j hj
    simp only [zero_fill]
    rw [ih (buf.set i 0) (i + 1) j (by omega)]
    exact take_set_of_le buf 0 hj

theorem take_set_succ (l : List Nat) (a : Nat) {i : Nat} (h : i < l.length) :
    (l.set i a).take (i + 1) = l.take i ++ [a] := by
  rw [List.take_succ, take_set_of_le l a (Nat.le_refl i)]
  simp [h]

/-- Invariant of the receive loop while the line stays short of the buffer. -/
theorem rx_loop_edits (eol ign n : Nat) (rest : List Nat) (hn : n < 65536) :
    ∀ (s kept : List Nat) (c : cmdline_t) (buf echo : List Nat),
      c.char_eol = eol → c.char_ignore = ign → c.config.receive_buffer_size = n →
      c.receive_char_index = kept.length → buf.take kept.length = kept →
      n ≤ buf.length → eol ∉ s → kept.length + s.length + 1 < n →
      (rx_loop c buf echo (s ++ eol :: rest)).complete = true ∧
      (rx_loop c buf echo (s ++ eol :: rest)).rest = rest ∧
      (rx_loop c buf echo (s ++ eol :: rest)).echo = echo ++ s ++ [eol] ∧
      (rx_loop c buf echo (s ++ eol :: rest)).cmdline.receive_char_index
        = (s.foldl (edit_step ign) kept).length ∧
      (rx_loop c buf echo (s ++ eol :: rest)).buf.take (s.foldl (edit_step ign) kept).length
        = s.foldl (edit_step ign) kept := by
  intro s
  induction s with
  | nil =>
    intro kept c buf echo he hi hsz hidx htake hlen _ hb
    have hend : is_end_of_character_or_buffer_detected c eol = true := by
      simp [is_end_of_character_or_buffer_detected, he]
    simp only [List.nil_append, rx_loop, hend, if_true, List.foldl_nil, List.append_nil]
    refine ⟨trivial, trivial, trivial, hidx, ?_⟩
    simp only [terminate_receive_buffer]
    rw [zero_fill_take _ _ _ _ (by omega)]
    exact htake
  | cons b s ih =>
    intro kept c buf echo he hi hsz hidx htake hlen hmem hb
    have hbe : b ≠ eol := fun h => hmem (by simp [h])
    have hs : eol ∉ s := fun h => hmem (by simp [h])
    simp only [List.length_cons] at hb
    have hend : is_end_of_character_or_buffer_detected c b = false := by
      simp only [is_end_of_character_or_buffer_detected, he, hsz, hidx]
      simp only [Bool.or_eq_false_iff, decide_eq_false_iff_not]
      exact ⟨by omega, hbe⟩
    simp only [List.cons_append, rx_loop, hend, List.foldl_cons]
    by_cases hdel : b = CHARACTER_DELETE ∨ b = CHARACTER_BACKSPACE
    · have hstep : edit_step ign kept b = kept.dropLast := by
        simp only [CHARACTER_DELETE, CHARACTER_BACKSPACE] at hdel
        simp [edit_step, hdel]
      simp only [hdel, if_true, hstep, Bool.false_eq_true, if_false]
      have key := ih kept.dropLast (remove_last_entry_character_data c buf).1
        (remove_last_entry_character_data c buf).2 (echo ++ [b])
      by_cases hz : c.receive_char_index = 0
      · have hk : kept = [] := List.length_eq_zero.mp (by omega)
        simp only [remove_last_entry_character_data, hz, if_true] at key ⊢
        subst hk
        simpa using key he hi hsz (by simp) (by simp) hlen hs (by simp; omega)
      · simp only [remove_last_entry_character_data, hz, if_false] at key ⊢
        have := key he hi hsz (by simp [hidx]) (by
            rw [List.length_dropLast, take_set_of_le _ _ (by omega), List.dropLast_eq_take,
              ← htake]
            simp [List.take_take]) (by simpa using hlen) hs (by simp; omega)
        simpa using this
    · have hdel2 : ¬ (b = 127 ∨ b = 8) := by
        simpa only [CHARACTER_DELETE, CHARACTER_BACKSPACE] using hdel
      simp only [hdel, if_false, Bool.false_eq_true]
      by_cases hig : b = c.char_ignore
      · have hstep : edit_step ign kept b = kept := by
          unfold edit_step
          rw [if_neg hdel2, if_pos (hig.trans hi)]
        have hne : ¬ (b ≠ c.char_ignore) := not_not.mpr hig
        simp only [if_neg hne, hstep]
        have := ih kept c buf (echo ++ [b]) he hi hsz hidx htake hlen hs (by omega)
        simpa using this
      · have hstep : edit_step ign kept b = kept ++ [b] := by
          unfold edit_step
          rw [if_neg hdel2, if_neg (fun h => hig (h.trans hi.symm))]
        have hne : b ≠ c.char_ignore := hig
        simp only [if_pos hne, hstep]
        have := ih (kept ++ [b]) (add_received_byte_to_serial_msg c buf b).1
          (add_received_byte_to_serial_msg c buf b).2 (echo ++ [b]) he hi hsz
          (by simp only [add_received_byte_to_serial_msg, hidx, List.length_append,
                List.length_singleton]; omega)
          (by simp only [add_received_byte_to_serial_msg, hidx, List.length_append,
                List.length_singleton]
              rw [take_set_succ _ _ (by omega), htake])
          (by simpa [add_received_byte_to_serial_msg] using hlen) hs
          (by simp; omega)
        simpa using this

theorem rx_loop_buf_length : ∀ (pending : List Nat) (c : cmdline_t) (buf echo : List Nat),
    (rx_loop c buf echo pending).buf.length = buf.length := by
  intro pending
  induction pending with
  | nil => intro c buf echo; rfl
  | cons b pending ih =>
    intro c buf echo
    simp only [rx_loop]
    split
    · simp [terminate_receive_buffer, zero_fill_length]
    · split
      · rw [ih]
        simp only [remove_last_entry_character_data]
        split <;> simp
      · split
        · rw [ih]; simp [add_received_byte_to_serial_msg]
        · rw [ih]

/-! ## C1 -/

/-- C1: for a session with cursor 0, a buffer of `receive_buffer_size` bytes and a byte
sequence `s` without the end-of-line byte and shorter than `receive_buffer_size - 1`,
the line editor run on `s` followed by the end-of-line byte consumes exactly those bytes,
signals completion, and leaves `buf[0 .. cursor)` equal to `s` with the edits applied
left to right. -/
theorem line_editor_applies_edits (c : cmdline_t) (env : Env) (s rest : List Nat)
    (hcur : c.receive_char_index = 0)
    (hsz : c.config.receive_buffer_size < 65536)
    (hbuf : c.config.receive_buffer_size ≤ env.buf.length)
    (hrx : env.rx = s ++ c.char_eol :: rest)
    (heol : c.char_eol ∉ s)
    (hlen : (s.length : Int) < (c.config.receive_buffer_size : Int) - 1) :
    (process_rx_msg_complete c env).1 = true ∧
    (process_rx_msg_complete c env).2.2.rx = rest ∧
    (process_rx_msg_complete c env).2.2.tx = env.tx ++ s ++ [c.char_eol] ∧
    (process_rx_msg_complete c env).2.1.receive_char_index
      = (apply_edits c.char_ignore s).length ∧
    (process_rx_msg_complete c env).2.2.buf.take
        (process_rx_msg_complete c env).2.1.receive_char_index
      = apply_edits c.char_ignore s := by
  have h := rx_loop_edits c.char_eol c.char_ignore c.config.receive_buffer_size rest hsz
    s [] c env.buf [] rfl rfl rfl (by simpa using hcur) (by simp) hbuf heol
    (by simp only [List.length_nil]; omega)
  obtain ⟨h1, h2, h3, h4, h5⟩ := h
  simp only [process_rx_msg_complete, hrx, apply_edits]
  refine ⟨h1, h2, ?_, h4, ?_⟩
  · rw [h3]; simp
  · rw [h4]; exact h5

theorem line_editor_applies_edits_witness :
    (process_rx_msg_complete sample_session
        (sample_env [99, 109, 120, 127, 10, 100, 8, 8, 8, 8, 104, 13, 10, 122])).1 = true ∧
    (process_rx_msg_complete sample_session
        (sample_env [99, 109, 120, 127, 10, 100, 8, 8, 8, 8, 104, 13, 10, 122])).2.2.buf.take 1
      = [104] ∧
    apply_edits 10 [99, 109, 120, 127, 10, 100, 8, 8, 8, 8, 104] = [104] := by
  have h := line_editor_applies_edits sample_session
    (sample_env [99, 109, 120, 127, 10, 100, 8, 8, 8, 8, 104, 13, 10, 122])
    [99, 109, 120, 127, 10, 100, 8, 8, 8, 8, 104] [10, 122]
    rfl (by decide) (by decide) rfl (by decide) (by decide)
  have e : apply_edits sample_session.char_ignore [99, 109, 120, 127, 10, 100, 8, 8, 8, 8, 104]
      = [104] := by decide
  rw [e] at h
  obtain ⟨h1, _, _, h4, h5⟩ := h
  rw [h4] at h5
  exact ⟨h1, h5, by decide⟩

/-! ## C2 -/

theorem splitOnP_eq (p : Nat → Bool) : ∀ l : List Nat,
    l.splitOnP p = l.takeWhile (fun b => !p b) ::
      (match l.dropWhile (fun b => !p b) with
       | [] => []
       | _ :: r => r.splitOnP p) := by
  intro l
  induction l with
  | nil => simp [List.splitOnP_nil]
  | cons b l ih =>
    rw [List.splitOnP_cons]
    by_cases hb : p b = true
    · simp [hb]
    · simp only [hb, Bool.false_eq_true, if_false]
      rw [ih]
      simp [hb]

theorem words_nil : words [] = [] := by
  simp [words, List.splitOnP_nil]

theorem words_cons_space (l : List Nat) : words (32 :: l) = words l := by
  simp [words, List.splitOnP_cons]

theorem words_cons (b : Nat) (l : List Nat) (hb : b ≠ 32) :
    words (b :: l) = (b :: l.takeWhile (fun x => x != 32)) ::
      words (l.dropWhile (fun x => x != 32)) := by
  have e : (fun x : Nat => !(x == 32)) = (fun x => x != 32) := rfl
  unfold words
  rw [splitOnP_eq, e]
  have hb2 : (b != 32) = true := by simpa using hb
  rw [List.takeWhile_cons, List.dropWhile_cons]
  simp only [hb2, if_true]
  rw [List.filter_cons]
  simp only [List.isEmpty_cons, Bool.not_false, if_true]
  congr 1
  cases hd : l.dropWhile (fun x => x != 32) with
  | nil => simp [List.splitOnP_nil]
  | cons x r =>
    have hx : (x != 32) = false := by
      have := List.head_dropWhile_not (fun x : Nat => x != 32) l (by rw [hd]; simp)
      simpa [hd] using this
    have hx2 : x = 32 := by simpa using hx
    subst hx2
    simp [List.splitOnP_cons]

theorem getD_append_cons (pre : List Nat) (a : Nat) (rest : List Nat) :
    (pre ++ a :: rest).getD pre.length 0 = a := by
  induction pre with
  | nil => rfl
  | cons x pre ih => simpa using ih

theorem set_append_cons (pre : List Nat) (a v : Nat) (rest : List Nat) :
    (pre ++ a :: rest).set pre.length v = pre ++ v :: rest := by
  induction pre with
  | nil => rfl
  | cons x pre ih => simp

/-- The tokenizer loop from an index `i > 0` on, as long as the slot limit is not hit. -/
theorem argc_loop_tail (tail : List Nat) : ∀ (l pre : List Nat) (prev : Nat)
    (argv : Nat → Nat) (n : Nat),
    n + (token_starts prev l (pre.length + 1)).length ≤ 8 →
    argc_loop l.length (pre.length + 1) ⟨pre ++ prev :: (l ++ tail), argv, n⟩
      = ⟨pre ++ prev :: (l.map space_to_nul ++ tail),
          write_slots argv n (token_starts prev l (pre.length + 1)),
          n + (token_starts prev l (pre.length + 1)).length⟩ := by
  intro l
  induction l with
  | nil => intro pre prev argv n _; simp [argc_loop, token_starts, write_slots]
  | cons b l ih =>
    intro pre prev argv n hn
    have hidx : (pre ++ prev :: (b :: l ++ tail)).getD (pre.length + 1) 0 = b := by
      have := getD_append_cons (pre ++ [prev]) b (l ++ tail)
      simpa using this
    have hprev : (pre ++ prev :: (b :: l ++ tail)).getD pre.length 0 = prev :=
      getD_append_cons pre prev _
    have hset : (pre ++ prev :: (b :: l ++ tail)).set (pre.length + 1) 0
        = (pre ++ [prev]) ++ 0 :: (l ++ tail) := by
      simp
    have hshift : pre ++ prev :: (b :: l ++ tail) = (pre ++ [prev]) ++ b :: (l ++ tail) := by
      simp
    have hlen : (pre ++ [prev]).length + 1 = pre.length + 1 + 1 := by simp
    simp only [List.length_cons, argc_loop, is_argc_start_found, Nat.add_one_ne_zero, if_false,
      hidx, Nat.add_sub_cancel, hprev, CHARACTER_SPACE, CMDLINE_MAX_ARGS]
    by_cases hb : b = 32
    · subst hb
      simp only [if_true, Bool.false_eq_true, if_false, hset]
      simp only [token_starts, if_true] at hn ⊢
      have := ih (pre ++ [prev]) 0 argv n (by rw [hlen]; exact hn)
      rw [hlen] at this
      rw [this]
      simp [space_to_nul]
    · simp only [hb, if_false]
      by_cases hp : prev = 0
      · simp only [token_starts, hb, if_false, hp, if_true, List.length_cons] at hn ⊢
        have hn8 : ¬ (n ≥ 8) := by omega
        simp only [hn8, if_false]
        have hmod : (n + 1) % 256 = n + 1 := by omega
        rw [hmod]
        have hshift0 : pre ++ 0 :: (b :: l ++ tail) = (pre ++ [0]) ++ b :: (l ++ tail) := by
          simp
        have hlen0 : (pre ++ [0]).length + 1 = pre.length + 1 + 1 := by simp
        rw [hshift0]
        have := ih (pre ++ [0]) b (fun j => if j = n then pre.length + 1 else argv j) (n + 1)
          (by rw [hlen0]; omega)
        rw [hlen0] at this
        rw [this]
        simp [space_to_nul, hb, write_slots]
        omega
      · simp only [token_starts, hb, if_false, hp] at hn ⊢
        simp only [Bool.false_eq_true, if_false]
        rw [hshift]
        have := ih (pre ++ [prev]) b argv n (by rw [hlen]; exact hn)
        rw [hlen] at this
        rw [this]
        simp [space_to_nul, hb]

theorem takeWhile_space_to_nul (rest : List Nat) : ∀ l : List Nat, 0 ∉ l →
    (l.map space_to_nul ++ 0 :: rest).takeWhile (fun b => b != 0)
      = l.takeWhile (fun b => b != 32) := by
  intro l
  induction l with
  | nil => intro _; simp
  | cons b l ih =>
    intro h0
    have hb0 : b ≠ 0 := fun h => h0 (by simp [h])
    have hl : 0 ∉ l := fun h => h0 (by simp [h])
    by_cases hb : b = 32
    · subst hb; simp [space_to_nul]
    · simp [space_to_nul, hb, hb0, ih hl]

theorem drop_succ_of_drop_eq_cons : ∀ (i : Nat) (F : List Nat) (a : Nat) (t : List Nat),
    F.drop i = a :: t → F.drop (i + 1) = t := by
  intro i
  induction i with
  | zero => intro F a t h; cases F with
    | nil => simp at h
    | cons x F => simp at h; simp [h.2]
  | succ i ih => intro F a t h; cases F with
    | nil => simp at h
    | cons x F => simp only [List.drop_succ_cons] at h ⊢; exact ih F a t h

/-- The strings found at the token starts of the rewritten buffer are the words. -/
theorem token_starts_strings (F rest : List Nat) : ∀ (l : List Nat) (prev i : Nat),
    0 ∉ l → F.drop i = l.map space_to_nul ++ 0 :: rest →
    (token_starts prev l i).map (c_str F)
      = if prev = 0 then words l else words (l.dropWhile (fun b => b != 32)) := by
  intro l
  induction l with
  | nil => intro prev i _ _; simp [token_starts, words_nil]
  | cons b l ih =>
    intro prev i h0 hF
    have hb0 : b ≠ 0 := fun h => h0 (by simp [h])
    have hl : 0 ∉ l := fun h => h0 (by simp [h])
    have hF1 : F.drop (i + 1) = l.map space_to_nul ++ 0 :: rest :=
      drop_succ_of_drop_eq_cons i F (space_to_nul b) _ (by simpa using hF)
    by_cases hb : b = 32
    · subst hb
      simp only [token_starts, if_true]
      rw [ih 0 (i + 1) hl hF1]
      simp [words_cons_space]
    · have hb2 : (b != 32) = true := by simpa using hb
      simp only [token_starts, hb, if_false]
      by_cases hp : prev = 0
      · simp only [hp, if_true, List.map_cons]
        rw [ih b (i + 1) hl hF1, if_neg hb0, words_cons b l hb]
        congr 1
        unfold c_str
        rw [hF, takeWhile_space_to_nul rest (b :: l) h0, List.takeWhile_cons]
        simp [hb2]
      · simp only [hp, if_false]
        rw [ih b (i + 1) hl hF1, if_neg hb0, List.dropWhile_cons]
        simp [hb2]

theorem write_slots_lt : ∀ (xs : List Nat) (argv : Nat → Nat) (k j : Nat), j < k →
    write_slots argv k xs j = argv j := by
  intro xs
  induction xs with
  | nil => intro argv k j _; rfl
  | cons x xs ih =>
    intro argv k j hj
    simp only [write_slots]
    rw [ih _ (k + 1) j (by omega)]
    simp; omega

theorem write_slots_get : ∀ (xs : List Nat) (argv : Nat → Nat) (k j : Nat)
    (h : j < xs.length), write_slots argv k xs (k + j) = xs[j] := by
  intro xs
  induction xs with
  | nil => intro argv k j h; simp at h
  | cons x xs ih =>
    intro argv k j h
    simp only [write_slots]
    cases j with
    | zero => rw [Nat.add_zero, write_slots_lt _ _ _ _ (by omega)]; simp
    | succ j =>
      have := ih (fun j => if j = k then x else argv j) (k + 1) j (by simpa using h)
      rw [show k + (j + 1) = k + 1 + j by omega, this]
      simp

theorem argv_strings_write_slots (xs : List Nat) (argv : Nat → Nat) (F : List Nat) :
    argv_strings xs.length (write_slots argv 0 xs) F = xs.map (c_str F) := by
  unfold argv_strings
  apply List.ext_getElem
  · simp
  · intro n h1 h2
    simp only [List.getElem_map, List.getElem_range]
    have h3 : n < xs.length := by simpa using h2
    have := write_slots_get xs argv 0 n h3
    rw [Nat.zero_add] at this
    rw [this]

theorem token_starts_length (b : Nat) (l rest : List Nat) (hb : b ≠ 32) (h0 : 0 ∉ b :: l) :
    (words (b :: l)).length = 1 + (token_starts b l 1).length := by
  have hb0 : b ≠ 0 := fun h => h0 (by simp [h])
  have hl : 0 ∉ l := fun h => h0 (by simp [h])
  have h := token_starts_strings (b :: (l.map space_to_nul ++ 0 :: rest)) rest l b 1 hl
    (by simp)
  rw [if_neg hb0] at h
  rw [words_cons b l hb, ← h]
  simp
  omega

/-- Closed form of the tokenizer loop on a line that starts with a non-space byte, has no
NUL byte and at most eight words. -/
theorem argc_loop_line (b : Nat) (l rest : List Nat) (argv : Nat → Nat) (hb : b ≠ 32)
    (h0 : 0 ∉ b :: l) (hmax : (words (b :: l)).length ≤ 8) :
    argc_loop (l.length + 1) 0 ⟨b :: l ++ 0 :: rest, argv, 0⟩
      = ⟨b :: (l.map space_to_nul ++ 0 :: rest),
          write_slots argv 0 (0 :: token_starts b l 1),
          1 + (token_starts b l 1).length⟩ := by
  have hlen := token_starts_length b l rest hb h0
  have h := argc_loop_tail (0 :: rest) l [] b (fun j => if j = 0 then 0 else argv j) 1
    (by simp only [List.length_nil, Nat.zero_add]; omega)
  simp only [List.length_nil, Nat.zero_add, List.nil_append] at h
  simp only [argc_loop, is_argc_start_found, if_true, CMDLINE_MAX_ARGS]
  have e8 : ¬ ((0 : Nat) ≥ 8) := by omega
  simp only [e8, if_false, Nat.zero_add, Nat.reduceMod, List.cons_append]
  rw [h]
  rfl

/-- C2: on a completed line without NUL byte, whose first byte is not a space and which has
at most `CMDLINE_MAX_ARGS` words, the tokenizer returns the number of words (maximal runs
of non-space bytes), and the arguments read as NUL-terminated strings are those words in
order; no word is empty. -/
theorem tokenizer_yields_words (c : cmdline_t) (line rest : List Nat)
    (hcur : c.receive_char_index = line.length)
    (hnul : 0 ∉ line)
    (hfirst : line.head? ≠ some CHARACTER_SPACE)
    (hmax : (words line).length ≤ CMDLINE_MAX_ARGS) :
    (get_argc_count_from_cmd_msg c (line ++ 0 :: rest)).1 = (words line).length ∧
    argv_strings (get_argc_count_from_cmd_msg c (line ++ 0 :: rest)).1
        (get_argc_count_from_cmd_msg c (line ++ 0 :: rest)).2.1.ppcArgv
        (get_argc_count_from_cmd_msg c (line ++ 0 :: rest)).2.2
      = words line ∧
    [] ∉ words line := by
  have hne : [] ∉ words line := by
    unfold words
    simp [List.mem_filter]
  cases line with
  | nil =>
    simp only [get_argc_count_from_cmd_msg, hcur, List.length_nil, argc_loop, words_nil]
    simp [argv_strings]
  | cons b l =>
    have hb : b ≠ 32 := by
      intro h; apply hfirst; simp [h, CHARACTER_SPACE]
    have hb0 : b ≠ 0 := fun h => hnul (by simp [h])
    have hl : 0 ∉ l := fun h => hnul (by simp [h])
    have hloop := argc_loop_line b l rest c.ppcArgv hb hnul hmax
    have hlen := token_starts_length b l rest hb hnul
    have hstr := token_starts_strings (b :: (l.map space_to_nul ++ 0 :: rest)) rest l b 1 hl
      (by simp)
    rw [if_neg hb0] at hstr
    simp only [get_argc_count_from_cmd_msg, hcur, List.length_cons, hloop]
    refine ⟨hlen.symm, ?_, hne⟩
    have e : 1 + (token_starts b l 1).length = (0 :: token_starts b l 1).length := by
      simp; omega
    rw [e, argv_strings_write_slots, List.map_cons, hstr, words_cons b l hb]
    congr 1
    unfold c_str
    have := takeWhile_space_to_nul rest (b :: l) hnul
    simp only [List.map_cons, List.cons_append] at this
    have hs : space_to_nul b = b := by simp [space_to_nul, hb]
    rw [hs] at this
    rw [List.drop_zero, this, List.takeWhile_cons]
    simp [hb]

theorem tokenizer_yields_words_witness :
    (get_argc_count_from_cmd_msg sample_session_10
        (str "cmd  a   b" ++ 0 :: [0, 0, 0, 0, 0])).1 = 3 ∧
    argv_strings 3
        (get_argc_count_from_cmd_msg sample_session_10
          (str "cmd  a   b" ++ 0 :: [0, 0, 0, 0, 0])).2.1.ppcArgv
        (get_argc_count_from_cmd_msg sample_session_10
          (str "cmd  a   b" ++ 0 :: [0, 0, 0, 0, 0])).2.2
      = [str "cmd", str "a", str "b"] := by
  have h := tokenizer_yields_words sample_session_10 (str "cmd  a   b") [0, 0, 0, 0, 0]
    (by decide) (by decide) (by decide) (by decide)
  have e : words (str "cmd  a   b") = [str "cmd", str "a", str "b"] := by decide
  rw [e] at h
  obtain ⟨h1, h2, _⟩ := h
  rw [h1] at h2
  exact ⟨h1, h2⟩

/-! ## C3 -/

/-- An empty completed line has no token, and the reply is the phrase `TOO FEW ARGS`; the
command table is not searched and no handler runs. -/
theorem empty_line_too_few_args (c : cmdline_t) (env : Env)
    (hinit : c.initialized = true) (hcur : c.receive_char_index = 0) :
    (get_argc_count_from_cmd_msg c env.buf).1 = 0 ∧
    cmdline_process c env = (CMDLINE_TOO_FEW_ARGS, c, env) := by
  have hl : argc_loop c.receive_char_index 0 ⟨env.buf, c.ppcArgv, 0⟩
      = ⟨env.buf, c.ppcArgv, 0⟩ := by rw [hcur]; rfl
  have h : get_argc_count_from_cmd_msg c env.buf = (0, c, env.buf) := by
    simp only [get_argc_count_from_cmd_msg, hl]
  refine ⟨by rw [h], ?_⟩
  simp [cmdline_process, hinit, h]

/-- C3: on the completed line consisting of one space the tokenizer returns 1 (not 0): index 0
is taken as a token start before the space test, so the line is dispatched with the
argument `" "` and the reply is `BAD CMD` (not `TOO FEW ARGS`). -/
theorem space_line_is_dispatched :
    (get_argc_count_from_cmd_msg { sample_session with receive_char_index := 1 }
        (32 :: List.replicate 15 0)).1 = 1 ∧
    (cmdline_process { sample_session with receive_char_index := 1 }
        { sample_env [] with buf := 32 :: List.replicate 15 0 }).1 = CMDLINE_BAD_CMD ∧
    (cmdline_process_msg (some sample_session) (sample_env [32, 13])).2.2.tx
      = [32, 13] ++ str "BAD CMD" ++ [13, 10] := by
  decide

/-! ## C4 -/

theorem scan_no_match (c : cmdline_t) (argc : Nat) (env : Env) :
    ∀ (table : List cmdline_entry_t) (idx : Nat),
    (∀ e ∈ entries_before_sentinel table, ∀ name, e.pcCmd = some name →
      ¬ name_matches name c env.buf) →
    scan_cmd_entries c argc env table idx = (CMDLINE_BAD_CMD, env) := by
  intro table
  induction table with
  | nil => intro idx _; rfl
  | cons e table ih =>
    intro idx h
    cases hn : e.pcCmd with
    | none => simp [scan_cmd_entries, hn]
    | some name =>
      have hlive : entries_before_sentinel (e :: table) = e :: entries_before_sentinel table := by
        simp [entries_before_sentinel, List.takeWhile_cons, hn]
      have hne : ¬ (c_str env.buf (c.ppcArgv 0) = c_str name 0) := by
        intro heq
        exact h e (by rw [hlive]; simp) name hn heq.symm
      simp only [scan_cmd_entries, hn, hne, if_false]
      apply ih
      intro e2 he2 name2 hn2
      exact h e2 (by rw [hlive]; simp [he2]) name2 hn2

theorem scan_first_match (c : cmdline_t) (argc : Nat) (env : Env) :
    ∀ (table : List cmdline_entry_t) (idx i : Nat) (e : cmdline_entry_t) (name : List Nat),
    (entries_before_sentinel table)[i]? = some e → e.pcCmd = some name →
    name_matches name c env.buf →
    (∀ j e2 name2, j < i → (entries_before_sentinel table)[j]? = some e2 →
      e2.pcCmd = some name2 → ¬ name_matches name2 c env.buf) →
    scan_cmd_entries c argc env table idx
      = ((e.pfnCmd argc c.ppcArgv env.buf).1,
         { env with
             tx := env.tx ++ (e.pfnCmd argc c.ppcArgv env.buf).2
             calls := env.calls ++ [⟨idx + i, argc, argv_slots c, env.buf⟩] }) := by
  intro table
  induction table with
  | nil => intro idx i e name hi; simp [entries_before_sentinel] at hi
  | cons e0 table ih =>
    intro idx i e name hi hn hm hfirst
    cases hn0 : e0.pcCmd with
    | none => simp [entries_before_sentinel, List.takeWhile_cons, hn0] at hi
    | some name0 =>
      have hlive : entries_before_sentinel (e0 :: table)
          = e0 :: entries_before_sentinel table := by
        simp [entries_before_sentinel, List.takeWhile_cons, hn0]
      rw [hlive] at hi hfirst
      cases i with
      | zero =>
        simp only [List.getElem?_cons_zero, Option.some.injEq] at hi
        subst hi
        have hnn : name0 = name := by
          rw [hn0] at hn
          exact Option.some.inj hn
        have hm2 : c_str env.buf (c.ppcArgv 0) = c_str name0 0 := by
          rw [hnn]; exact hm.symm
        simp only [scan_cmd_entries, hn0, hm2, if_true, Nat.add_zero]
      | succ i =>
        simp only [List.getElem?_cons_succ] at hi
        have hne : ¬ (c_str env.buf (c.ppcArgv 0) = c_str name0 0) := by
          intro heq
          exact hfirst 0 e0 name0 (by omega) (by simp) hn0 heq.symm
        simp only [scan_cmd_entries, hn0, hne, if_false]
        rw [ih (idx + 1) i e name hi hn hm]
        · rw [show idx + 1 + i = idx + (i + 1) by omega]
        · intro j e2 name2 hj hj2 hn2
          exact hfirst (j + 1) e2 name2 (by omega) (by simpa using hj2) hn2

/-- C4: with the command table `table` and any `argc`, the dispatcher returns
`CMDLINE_BAD_CMD` and leaves the environment untouched (no handler runs) when no entry
before the sentinel has a name equal to `argv[0]`; when entry `i` before the sentinel is the
first one whose name equals `argv[0]`, exactly one handler invocation is recorded, that of
entry `i` with `(argc, argv)`, and the handler status is returned unchanged. -/
theorem dispatcher_first_match (c : cmdline_t) (argc : Nat) (env : Env)
    (table : List cmdline_entry_t) (htable : c.config.cmdline_entry = some table) :
    ((∀ e ∈ entries_before_sentinel table, ∀ name, e.pcCmd = some name →
        ¬ name_matches name c env.buf) →
      execute_matching_cmd_entry_return_status c argc env = (CMDLINE_BAD_CMD, env)) ∧
    (∀ (i : Nat) (e : cmdline_entry_t) (name : List Nat),
      (entries_before_sentinel table)[i]? = some e → e.pcCmd = some name →
      name_matches name c env.buf →
      (∀ j e2 name2, j < i → (entries_before_sentinel table)[j]? = some e2 →
        e2.pcCmd = some name2 → ¬ name_matches name2 c env.buf) →
      (execute_matching_cmd_entry_return_status c argc env).1
        = (e.pfnCmd argc c.ppcArgv env.buf).1 ∧
      (execute_matching_cmd_entry_return_status c argc env).2.calls
        = env.calls ++ [⟨i, argc, argv_slots c, env.buf⟩] ∧
      (execute_matching_cmd_entry_return_status c argc env).2.tx
        = env.tx ++ (e.pfnCmd argc c.ppcArgv env.buf).2 ∧
      (execute_matching_cmd_entry_return_status c argc env).2.buf = env.buf ∧
      (execute_matching_cmd_entry_return_status c argc env).2.rx = env.rx) := by
  constructor
  · intro h
    simp only [execute_matching_cmd_entry_return_status, htable, Option.getD_some]
    exact scan_no_match c argc env table 0 h
  · intro i e name hi hn hm hfirst
    simp only [execute_matching_cmd_entry_return_status, htable, Option.getD_some]
    rw [scan_first_match c argc env table 0 i e name hi hn hm hfirst]
    simp

theorem dispatcher_first_match_witness :
    (execute_matching_cmd_entry_return_status sample_session 2 env_cmd_a).1
      = CMDLINE_INVALID_ARG ∧
    (execute_matching_cmd_entry_return_status sample_session 2 env_cmd_a).2.calls
      = [⟨0, 2, [0, 0, 0, 0, 0, 0, 0, 0, 0], env_cmd_a.buf⟩] ∧
    execute_matching_cmd_entry_return_status sample_session 1 env_zz
      = (CMDLINE_BAD_CMD, env_zz) := by
  have hm := (dispatcher_first_match sample_session 2 env_cmd_a sample_table rfl).2
    0 ⟨some (str "cmd"), sample_handler⟩ (str "cmd") rfl rfl (by decide)
    (by intro j e2 name2 hj; omega)
  have hb := (dispatcher_first_match sample_session 1 env_zz sample_table rfl).1
    (by
      intro e he name hn
      simp only [entries_before_sentinel, sample_table, List.takeWhile_cons, Option.isSome_some,
        Option.isSome_none, if_true, Bool.false_eq_true, if_false, List.mem_cons,
        List.mem_nil_iff, or_false] at he
      rcases he with rfl | rfl | rfl <;>
      · cases Option.some.inj hn
        decide)
  exact ⟨hm.1, hm.2.1, hb⟩

/-! ## C5 -/

/-- C5: for a null session or a session whose `initialized` flag is false,
`cmdline_process_msg` returns `CMDLINE_ERROR` and leaves the session and the whole
environment (buffer, pending input, output, handler log) unchanged. -/
theorem process_msg_uninitialized (cmdline : Option cmdline_t) (env : Env)
    (h : cmdline = none ∨ ∃ s, cmdline = some s ∧ s.initialized = false) :
    cmdline_process_msg cmdline env = (CMDLINE_ERROR, cmdline, env) := by
  rcases h with h | ⟨s, h, hs⟩
  · subst h; rfl
  · subst h; simp [cmdline_process_msg, hs]

theorem process_msg_uninitialized_witness :
    cmdline_process_msg none (sample_env [104, 13])
      = (CMDLINE_ERROR, none, sample_env [104, 13]) ∧
    cmdline_process_msg (some blank_session) (sample_env [104, 13])
      = (CMDLINE_ERROR, some blank_session, sample_env [104, 13]) :=
  ⟨process_msg_uninitialized none (sample_env [104, 13]) (Or.inl rfl),
   process_msg_uninitialized (some blank_session) (sample_env [104, 13])
     (Or.inr ⟨blank_session, rfl, rfl⟩)⟩

/-! ## C6 -/

/-- C6: for an initialized session and any pending input, `cmdline_process_msg` returns
`CMDLINE_OK`, whether or not a line completes and whatever status the line produces. -/
theorem process_msg_ok (s : cmdline_t) (env : Env) (hinit : s.initialized = true) :
    (cmdline_process_msg (some s) env).1 = CMDLINE_OK := by
  simp only [cmdline_process_msg, hinit, Bool.true_eq_false, if_false]
  split <;> rfl

theorem process_msg_ok_witness :
    (cmdline_process_msg (some sample_session) (sample_env [104])).1 = CMDLINE_OK ∧
    (cmdline_process_msg (some sample_session) (sample_env [13])).1 = CMDLINE_OK ∧
    (cmdline_process_msg (some sample_session) (sample_env [122, 13])).1 = CMDLINE_OK ∧
    (cmdline_process_msg (some sample_session) (sample_env [120, 13])).1 = CMDLINE_OK ∧
    (cmdline_process_msg (some sample_session) (sample_env [120, 13])).2.2.tx
      = [120, 13] ++ str "BAD CMD" ++ [13, 10] :=
  ⟨process_msg_ok sample_session (sample_env [104]) rfl,
   process_msg_ok sample_session (sample_env [13]) rfl,
   process_msg_ok sample_session (sample_env [122, 13]) rfl,
   process_msg_ok sample_session (sample_env [120, 13]) rfl,
   by decide⟩

/-! ## Frame lemmas -/

theorem rx_loop_config : ∀ (pending : List Nat) (c : cmdline_t) (buf echo : List Nat),
    (rx_loop c buf echo pending).cmdline.config = c.config ∧
    (rx_loop c buf echo pending).cmdline.initialized = c.initialized := by
  intro pending
  induction pending with
  | nil => intro c buf echo; exact ⟨rfl, rfl⟩
  | cons b pending ih =>
    intro c buf echo
    simp only [rx_loop]
    split
    · exact ⟨rfl, rfl⟩
    · split
      · refine ⟨(ih _ _ _).1.trans ?_, (ih _ _ _).2.trans ?_⟩ <;>
        · simp only [remove_last_entry_character_data]
          split <;> rfl
      · split
        · exact ⟨(ih _ _ _).1.trans rfl, (ih _ _ _).2.trans rfl⟩
        · exact ih _ _ _

/-- The receive loop echoes exactly the bytes it consumes. -/
theorem rx_loop_echo : ∀ (pending : List Nat) (c : cmdline_t) (buf echo : List Nat),
    ∃ consumed, pending = consumed ++ (rx_loop c buf echo pending).rest ∧
      (rx_loop c buf echo pending).echo = echo ++ consumed := by
  intro pending
  induction pending with
  | nil => intro c buf echo; exact ⟨[], by simp [rx_loop]⟩
  | cons b pending ih =>
    intro c buf echo
    simp only [rx_loop]
    split
    · exact ⟨[b], by simp⟩
    · split
      · obtain ⟨u, h1, h2⟩ := ih (remove_last_entry_character_data c buf).1
          (remove_last_entry_character_data c buf).2 (echo ++ [b])
        exact ⟨b :: u, by rw [List.cons_append, ← h1], by rw [h2]; simp⟩
      · split
        · obtain ⟨u, h1, h2⟩ := ih (add_received_byte_to_serial_msg c buf b).1
            (add_received_byte_to_serial_msg c buf b).2 (echo ++ [b])
          exact ⟨b :: u, by rw [List.cons_append, ← h1], by rw [h2]; simp⟩
        · obtain ⟨u, h1, h2⟩ := ih c buf (echo ++ [b])
          exact ⟨b :: u, by rw [List.cons_append, ← h1], by rw [h2]; simp⟩

theorem argc_loop_buf_length : ∀ (k i : Nat) (st : argc_state),
    (argc_loop k i st).buf.length = st.buf.length := by
  intro k
  induction k with
  | zero => intro i st; rfl
  | succ k ih =>
    intro i st
    have hlen : (is_argc_start_found st.buf i).2.length = st.buf.length := by
      simp only [is_argc_start_found]
      split
      · rfl
      · split
        · simp
        · split <;> rfl
    simp only [argc_loop]
    split
    · split
      · exact hlen
      · rw [ih]; exact hlen
    · rw [ih]; exact hlen

theorem scan_cmd_entries_env (c : cmdline_t) (argc : Nat) (env : Env) :
    ∀ (table : List cmdline_entry_t) (idx : Nat),
    (scan_cmd_entries c argc env table idx).2.buf = env.buf ∧
    (scan_cmd_entries c argc env table idx).2.rx = env.rx := by
  intro table
  induction table with
  | nil => intro idx; exact ⟨rfl, rfl⟩
  | cons e table ih =>
    intro idx
    simp only [scan_cmd_entries]
    split
    · exact ⟨rfl, rfl⟩
    · split
      · exact ⟨rfl, rfl⟩
      · exact ih _

theorem scan_cmd_entries_tx (c : cmdline_t) (argc : Nat) (env : Env) :
    ∀ (table : List cmdline_entry_t) (idx : Nat),
    (∀ e ∈ table, ∀ a v b, (e.pfnCmd a v b).2 = []) →
    (scan_cmd_entries c argc env table idx).2.tx = env.tx := by
  intro table
  induction table with
  | nil => intro idx _; rfl
  | cons e table ih =>
    intro idx h
    simp only [scan_cmd_entries]
    split
    · rfl
    · split
      · simp [h e (by simp)]
      · exact ih _ (fun e2 he2 => h e2 (by simp [he2]))

theorem cmdline_process_frame (c : cmdline_t) (env : Env) :
    (cmdline_process c env).2.1.config = c.config ∧
    (cmdline_process c env).2.2.buf.length = env.buf.length ∧
    (cmdline_process c env).2.2.rx = env.rx := by
  simp only [cmdline_process]
  split
  · exact ⟨rfl, rfl, rfl⟩
  · split
    · exact ⟨rfl, by simp [get_argc_count_from_cmd_msg, argc_loop_buf_length], rfl⟩
    · refine ⟨rfl, ?_, ?_⟩
      · simp only [execute_matching_cmd_entry_return_status]
        rw [(scan_cmd_entries_env _ _ _ _ _).1]
        simp [get_argc_count_from_cmd_msg, argc_loop_buf_length]
      · simp only [execute_matching_cmd_entry_return_status]
        rw [(scan_cmd_entries_env _ _ _ _ _).2]

theorem cmdline_process_tx (c : cmdline_t) (env : Env)
    (h : ∀ table, c.config.cmdline_entry = some table →
      ∀ e ∈ table, ∀ a v b, (e.pfnCmd a v b).2 = []) :
    (cmdline_process c env).2.2.tx = env.tx := by
  simp only [cmdline_process]
  split
  · rfl
  · split
    · rfl
    · simp only [execute_matching_cmd_entry_return_status]
      rw [scan_cmd_entries_tx]
      intro e he
      cases ht : c.config.cmdline_entry with
      | none => simp [get_argc_count_from_cmd_msg, ht] at he
      | some table =>
        simp only [get_argc_count_from_cmd_msg, ht, Option.getD_some] at he
        exact h table ht e he

theorem memset_zero : ∀ (buf : List Nat) (n i : Nat), i < n → i < buf.length →
    (memset buf 0 n)[i]? = some 0 := by
  intro buf
  induction buf with
  | nil => intro n i _ h; simp at h
  | cons b buf ih =>
    intro n i hn hi
    cases n with
    | zero => omega
    | succ n =>
      cases i with
      | zero => simp [memset]
      | succ i =>
        simp only [memset, List.getElem?_cons_succ]
        exact ih n i (by omega) (by simpa using hi)

theorem memset_length : ∀ (buf : List Nat) (v n : Nat), (memset buf v n).length = buf.length := by
  intro buf
  induction buf with
  | nil => intro v n; rfl
  | cons b buf ih =>
    intro v n
    cases n with
    | zero => rfl
    | succ n => simp [memset, ih]

/-! ## C7 -/

/-- C7: when a `cmdline_process_msg` call on an initialized session completes a line, then
on return the cursor is 0 and every buffer slot `0 .. receive_buffer_size - 1` is zero,
whatever status the line produced. -/
theorem completed_line_clears_buffer (s : cmdline_t) (env : Env)
    (hinit : s.initialized = true)
    (hbuf : s.config.receive_buffer_size ≤ env.buf.length)
    (hdone : (process_rx_msg_complete s env).1 = true) :
    (∃ s2, (cmdline_process_msg (some s) env).2.1 = some s2 ∧ s2.receive_char_index = 0) ∧
    (cmdline_process_msg (some s) env).2.2.buf.length = env.buf.length ∧
    ∀ i, i < s.config.receive_buffer_size →
      (cmdline_process_msg (some s) env).2.2.buf[i]? = some 0 := by
  have hcfg : (process_rx_msg_complete s env).2.1.config = s.config :=
    (rx_loop_config env.rx s env.buf []).1
  have hlen1 : (process_rx_msg_complete s env).2.2.buf.length = env.buf.length :=
    rx_loop_buf_length env.rx s env.buf []
  have hfr := cmdline_process_frame (process_rx_msg_complete s env).2.1
    (process_rx_msg_complete s env).2.2
  simp only [cmdline_process_msg, hinit, Bool.true_eq_false, if_false, hdone]
  refine ⟨⟨_, rfl, rfl⟩, ?_, ?_⟩
  · simp only [clear_receive_buffer, send_command_line_status, memset_length]
    rw [hfr.2.1, hlen1]
  · intro i hi
    simp only [clear_receive_buffer, send_command_line_status]
    apply memset_zero
    · rw [hfr.1, hcfg]; exact hi
    · rw [hfr.2.1, hlen1]; omega

theorem completed_line_clears_buffer_witness :
    (cmdline_process_msg (some sample_session) (sample_env [122, 32, 49, 13, 104])).2.2.buf
      = List.replicate 16 0 ∧
    (cmdline_process_msg (some sample_session) (sample_env [122, 32, 49, 13, 104])).2.2.buf[15]?
      = some 0 := by
  have h := completed_line_clears_buffer sample_session (sample_env [122, 32, 49, 13, 104])
    rfl (by decide) (by decide)
  exact ⟨by decide, h.2.2 15 (by decide)⟩

/-! ## C8 -/

/-- C8: for an initialized session whose handlers write nothing themselves, the bytes written
through `tx_char` during one `cmdline_process_msg` call are the bytes consumed in that call,
in arrival order, followed, exactly when a line completed, by one phrase of the status
vocabulary (the message of the status code, `BAD CMD` for a code outside the table) and then
CR, LF. -/
theorem process_msg_output (s : cmdline_t) (env : Env)
    (hinit : s.initialized = true)
    (hquiet : ∀ table, s.config.cmdline_entry = some table →
      ∀ e ∈ table, ∀ a v b, (e.pfnCmd a v b).2 = []) :
    ∃ consumed, env.rx = consumed ++ (cmdline_process_msg (some s) env).2.2.rx ∧
      ((process_rx_msg_complete s env).1 = false →
        (cmdline_process_msg (some s) env).2.2.tx = env.tx ++ consumed) ∧
      ((process_rx_msg_complete s env).1 = true →
        ∃ status, status < CMDLINE_TOTAL_STATUS ∧
          status = (if (cmdline_process (process_rx_msg_complete s env).2.1
                          (process_rx_msg_complete s env).2.2).1 ≥ CMDLINE_TOTAL_STATUS
                    then CMDLINE_BAD_CMD
                    else (cmdline_process (process_rx_msg_complete s env).2.1
                          (process_rx_msg_complete s env).2.2).1) ∧
          cmdline_status_msg status ∈ status_vocabulary ∧
          (cmdline_process_msg (some s) env).2.2.tx
            = env.tx ++ consumed ++ cmdline_status_msg status
                ++ [CHARACTER_RETURN, CHARACTER_NEWLINE]) := by
  obtain ⟨consumed, hrx, hecho⟩ := rx_loop_echo env.rx s env.buf []
  have hcfg : (process_rx_msg_complete s env).2.1.config = s.config :=
    (rx_loop_config env.rx s env.buf []).1
  have hfr := cmdline_process_frame (process_rx_msg_complete s env).2.1
    (process_rx_msg_complete s env).2.2
  have htx := cmdline_process_tx (process_rx_msg_complete s env).2.1
    (process_rx_msg_complete s env).2.2 (by rw [hcfg]; exact hquiet)
  have htx1 : (process_rx_msg_complete s env).2.2.tx = env.tx ++ consumed := by
    simp only [process_rx_msg_complete, hecho, List.nil_append]
  have hrx1 : (process_rx_msg_complete s env).2.2.rx = (rx_loop s env.buf [] env.rx).rest := rfl
  refine ⟨consumed, ?_, ?_, ?_⟩
  · simp only [cmdline_process_msg, hinit, Bool.true_eq_false, if_false]
    split
    · exact hrx
    · simp only [clear_receive_buffer, send_command_line_status]
      rw [hfr.2.2, hrx1]
      exact hrx
  · intro hnot
    simp only [cmdline_process_msg, hinit, Bool.true_eq_false, if_false, hnot, if_true]
    exact htx1
  · intro hdone
    refine ⟨_, ?_, rfl, ?_, ?_⟩
    · simp only [CMDLINE_TOTAL_STATUS, CMDLINE_BAD_CMD]
      split <;> omega
    · generalize (cmdline_process (process_rx_msg_complete s env).2.1
        (process_rx_msg_complete s env).2.2).1 = st
      simp only [CMDLINE_TOTAL_STATUS, CMDLINE_BAD_CMD]
      split
      · decide
      · have : st < 6 := by omega
        interval_cases st <;> decide
    · simp only [cmdline_process_msg, hinit, Bool.true_eq_false, if_false, hdone,
        clear_receive_buffer, send_command_line_status]
      rw [htx, htx1]
      generalize (cmdline_process (process_rx_msg_complete s env).2.1
        (process_rx_msg_complete s env).2.2).1 = st
      have hc : ∀ k, k < 6 → c_str (cmdline_status_msg k) 0 = cmdline_status_msg k := by
        intro k hk
        interval_cases k <;> decide
      simp only [CMDLINE_TOTAL_STATUS, CMDLINE_BAD_CMD]
      split
      · rw [hc 4 (by omega)]
      · rw [hc st (by omega)]

theorem sample_table_quiet : ∀ table, sample_session.config.cmdline_entry = some table →
    ∀ e ∈ table, ∀ a v b, (e.pfnCmd a v b).2 = [] := by
  intro table ht e he a v b
  have : table = sample_table := (Option.some.inj ht).symm
  subst this
  simp only [sample_table, List.mem_cons, List.mem_nil_iff, or_false] at he
  rcases he with rfl | rfl | rfl | rfl <;> rfl

theorem process_msg_output_witness :
    ∃ consumed, [120, 13, 10] = consumed ++ [10] ∧
      (cmdline_process_msg (some sample_session) (sample_env [120, 13, 10])).2.2.tx
        = consumed ++ str "BAD CMD" ++ [13, 10] := by
  obtain ⟨consumed, h1, _, h3⟩ :=
    process_msg_output sample_session (sample_env [120, 13, 10]) rfl sample_table_quiet
  obtain ⟨status, _, hs, _, htx⟩ := h3 (by decide)
  have hrx : (cmdline_process_msg (some sample_session) (sample_env [120, 13, 10])).2.2.rx
      = [10] := by decide
  have hst : (cmdline_process (process_rx_msg_complete sample_session
      (sample_env [120, 13, 10])).2.1 (process_rx_msg_complete sample_session
      (sample_env [120, 13, 10])).2.2).1 = 7 := by decide
  rw [hst] at hs
  have hs4 : status = 4 := by rw [hs]; decide
  subst hs4
  rw [hrx] at h1
  refine ⟨consumed, h1, ?_⟩
  rw [htx]
  rfl

/-! ## C9 -/

/-- C9: for a session that is not yet initialized (or null), `cmdline_init` returns
`CMDLINE_ERROR` exactly when the session is null, the config is null, or one of the config's
command table, receive buffer, `rx_char`, `tx_char` is null, and then leaves the session
unchanged; otherwise it returns `CMDLINE_OK` and the session holds a copy of the config,
`(char_eol, char_ignore) = (CR, LF)` for EOL mode CR and `(LF, CR)` otherwise, and the
`initialized` flag set, all other fields unchanged. -/
theorem init_uninitialized (cmdline : Option cmdline_t) (config : Option cmdline_config_t)
    (h : cmdline = none ∨ ∃ s, cmdline = some s ∧ s.initialized = false) :
    ((cmdline_init cmdline config).1 = CMDLINE_ERROR ↔
      (cmdline = none ∨ config = none ∨
        ∃ cfg, config = some cfg ∧
          (cfg.cmdline_entry = none ∨ cfg.receive_buffer = false ∨ cfg.rx_char = false ∨
            cfg.tx_char = false))) ∧
    ((cmdline_init cmdline config).1 = CMDLINE_ERROR →
      (cmdline_init cmdline config).2 = cmdline) ∧
    ((cmdline_init cmdline config).1 ≠ CMDLINE_ERROR →
      (cmdline_init cmdline config).1 = CMDLINE_OK ∧
      ∃ s cfg, cmdline = some s ∧ config = some cfg ∧
        (cmdline_init cmdline config).2 = some
          { s with
            config := cfg
            char_eol := if cfg.eol = CMDLINE_EOL_CR then CHARACTER_RETURN else CHARACTER_NEWLINE
            char_ignore :=
              if cfg.eol = CMDLINE_EOL_CR then CHARACTER_NEWLINE else CHARACTER_RETURN
            initialized := true }) := by
  rcases h with h | ⟨s, h, hs⟩
  · subst h
    simp [cmdline_init]
  · subst h
    cases config with
    | none => simp [cmdline_init]
    | some cfg =>
      by_cases hbad : cfg.cmdline_entry.isNone ∨ cfg.receive_buffer = false ∨
          cfg.rx_char = false ∨ cfg.tx_char = false
      · have hbad2 : cfg.cmdline_entry = none ∨ cfg.receive_buffer = false ∨
            cfg.rx_char = false ∨ cfg.tx_char = false := by
          simpa [Option.isNone_iff_eq_none] using hbad
        simp only [cmdline_init, hs, Bool.false_eq_true, if_false, hbad, if_true]
        simp [hbad2]
      · have hbad2 : ¬ (cfg.cmdline_entry = none ∨ cfg.receive_buffer = false ∨
            cfg.rx_char = false ∨ cfg.tx_char = false) := by
          simpa [Option.isNone_iff_eq_none] using hbad
        simp only [cmdline_init, hs, Bool.false_eq_true, if_false, hbad]
        refine ⟨?_, ?_, ?_⟩
        · simp [hbad2]
        · intro h; cases h
        · intro _
          refine ⟨trivial, s, cfg, rfl, rfl, ?_⟩
          simp only [set_eol_character]
          split <;> rfl

theorem init_uninitialized_witness :
    (cmdline_init (some blank_session) (some sample_config)).1 = CMDLINE_OK ∧
    (∃ s2, (cmdline_init (some blank_session) (some sample_config)).2 = some s2 ∧
      s2.initialized = true ∧ s2.char_eol = 13 ∧ s2.char_ignore = 10 ∧
      s2.config.receive_buffer_size = 16) ∧
    (cmdline_init (some blank_session)
        (some { sample_config with tx_char := false })).1 = CMDLINE_ERROR := by
  have h1 := init_uninitialized (some blank_session) (some sample_config)
    (Or.inr ⟨blank_session, rfl, rfl⟩)
  have h2 := init_uninitialized (some blank_session) (some { sample_config with tx_char := false })
    (Or.inr ⟨blank_session, rfl, rfl⟩)
  have hok : (cmdline_init (some blank_session) (some sample_config)).1 ≠ CMDLINE_ERROR := by
    decide
  obtain ⟨hres, s, cfg, hs, hc, heq⟩ := h1.2.2 hok
  cases hs
  cases hc
  refine ⟨hres, ⟨_, heq, rfl, rfl, rfl, rfl⟩, ?_⟩
  exact h2.1.mpr (Or.inr (Or.inr ⟨_, rfl, Or.inr (Or.inr (Or.inr rfl))⟩))

/-! ## C10 -/

/-- C10: on an already initialized session a further `cmdline_init` with a (non-null)
config returns `CMDLINE_OK` and returns the session unchanged in every field (cursor, stored
config, `char_eol`, `char_ignore`, `initialized`); the function has no access to the buffer
memory, so an accumulated line is kept. -/
theorem init_idempotent (s : cmdline_t) (cfg : cmdline_config_t)
    (hinit : s.initialized = true) :
    cmdline_init (some s) (some cfg) = (CMDLINE_OK, some s) := by
  simp [cmdline_init, hinit]

theorem init_idempotent_witness :
    cmdline_init (cmdline_init (some blank_session) (some sample_config)).2 (some sample_config)
      = (CMDLINE_OK, (cmdline_init (some blank_session) (some sample_config)).2) ∧
    cmdline_init (some { sample_session with receive_char_index := 3 }) (some sample_config)
      = (CMDLINE_OK, some { sample_session with receive_char_index := 3 }) :=
  ⟨init_idempotent _ sample_config rfl,
   init_idempotent { sample_session with receive_char_index := 3 } sample_config rfl⟩

/-! ## The receive loop on composed input -/

/-- Success of `cmdline_init` leaves the end-of-line pair configured. -/
theorem init_eol_configured (s s2 : cmdline_t) (cfg : cmdline_config_t)
    (hs : s.initialized = false)
    (h : cmdline_init (some s) (some cfg) = (CMDLINE_OK, some s2)) :
    eol_configured s2 ∧ s2.initialized = true ∧ s2.config = cfg ∧
      s2.receive_char_index = s.receive_char_index := by
  simp only [cmdline_init, hs, Bool.false_eq_true, if_false] at h
  split at h
  · cases h
  · have h2 := Option.some.inj (Prod.mk.inj h).2
    subst h2
    simp only [set_eol_character, eol_configured]
    split <;> simp [CHARACTER_RETURN, CHARACTER_NEWLINE]

/-- The receive loop changes no field of the session but the cursor. -/
theorem rx_loop_session : ∀ (pending : List Nat) (c : cmdline_t) (buf echo : List Nat),
    (rx_loop c buf echo pending).cmdline
      = { c with receive_char_index := (rx_loop c buf echo pending).cmdline.receive_char_index }
    := by
  intro pending
  induction pending with
  | nil => intro c buf echo; rfl
  | cons b pending ih =>
    intro c buf echo
    simp only [rx_loop]
    split
    · rfl
    · split
      · rw [ih]
        simp only [remove_last_entry_character_data]
        split <;> rfl
      · split
        · rw [ih]; rfl
        · exact ih _ _ _

/-- Bytes that complete no line are consumed entirely, and the loop goes on with what
follows them. -/
theorem rx_loop_append (rest : List Nat) : ∀ (pre : List Nat) (c : cmdline_t)
    (buf echo : List Nat), (rx_loop c buf echo pre).complete = false →
    (rx_loop c buf echo pre).rest = [] ∧
    rx_loop c buf echo (pre ++ rest)
      = rx_loop (rx_loop c buf echo pre).cmdline (rx_loop c buf echo pre).buf
          (rx_loop c buf echo pre).echo rest := by
  intro pre
  induction pre with
  | nil => intro c buf echo _; exact ⟨rfl, rfl⟩
  | cons b pre ih =>
    intro c buf echo h
    simp only [rx_loop, List.cons_append] at h ⊢
    by_cases hend : is_end_of_character_or_buffer_detected c b = true
    · simp only [hend, if_true] at h
      cases h
    · simp only [hend, Bool.false_eq_true, if_false] at h ⊢
      by_cases hdel : b = CHARACTER_DELETE ∨ b = CHARACTER_BACKSPACE
      · simp only [hdel, if_true] at h ⊢
        exact ih _ _ _ h
      · simp only [hdel, if_false] at h ⊢
        by_cases hig : b ≠ c.char_ignore
        · simp only [if_pos hig] at h ⊢
          exact ih _ _ _ h
        · simp only [if_neg hig] at h ⊢
          exact ih _ _ _ h

/-- Ordinary bytes that fit below the last buffer slot are appended one by one. -/
theorem rx_loop_ordinary (n : Nat) (hn : n < 65536) :
    ∀ (w kept : List Nat) (c : cmdline_t) (buf echo : List Nat),
      c.config.receive_buffer_size = n →
      c.receive_char_index = kept.length → buf.take kept.length = kept →
      n ≤ buf.length → (∀ b ∈ w, ordinary c b) → kept.length + w.length + 1 ≤ n →
      (rx_loop c buf echo w).complete = false ∧
      (rx_loop c buf echo w).rest = [] ∧
      (rx_loop c buf echo w).echo = echo ++ w ∧
      (rx_loop c buf echo w).cmdline.receive_char_index = kept.length + w.length ∧
      (rx_loop c buf echo w).buf.take (kept.length + w.length) = kept ++ w := by
  intro w
  induction w with
  | nil =>
    intro kept c buf echo _ hidx htake _ _ _
    simp only [rx_loop, List.append_nil, List.length_nil, Nat.add_zero]
    exact ⟨trivial, trivial, trivial, hidx, htake⟩
  | cons b w ih =>
    intro kept c buf echo hsz hidx htake hlen hord hb
    obtain ⟨hbe, hbi, hb8, hb127⟩ := hord b (by simp)
    simp only [List.length_cons] at hb
    have hend : is_end_of_character_or_buffer_detected c b = false := by
      simp only [is_end_of_character_or_buffer_detected, hsz, hidx]
      simp only [Bool.or_eq_false_iff, decide_eq_false_iff_not]
      exact ⟨by omega, hbe⟩
    have hdel : ¬ (b = CHARACTER_DELETE ∨ b = CHARACTER_BACKSPACE) := by
      intro h; rcases h with h | h
      · exact hb127 h
      · exact hb8 h
    have hne : b ≠ c.char_ignore := hbi
    simp only [rx_loop, hend, Bool.false_eq_true, if_false, hdel, if_pos hne]
    have := ih (kept ++ [b]) (add_received_byte_to_serial_msg c buf b).1
      (add_received_byte_to_serial_msg c buf b).2 (echo ++ [b]) hsz
      (by simp only [add_received_byte_to_serial_msg, hidx, List.length_append,
            List.length_singleton]; omega)
      (by simp only [add_received_byte_to_serial_msg, hidx, List.length_append,
            List.length_singleton]
          rw [take_set_succ _ _ (by omega), htake])
      (by simpa [add_received_byte_to_serial_msg] using hlen)
      (fun x hx => hord x (by simp [hx]))
      (by simp; omega)
    simp only [List.length_append, List.length_singleton, List.append_assoc,
      List.singleton_append] at this
    simp only [List.length_cons]
    rw [show kept.length + (w.length + 1) = kept.length + 1 + w.length by omega]
    exact this

theorem eol_configured_ne (c : cmdline_t) (h : eol_configured c) :
    c.char_eol ≠ CHARACTER_BACKSPACE ∧ c.char_eol ≠ CHARACTER_DELETE ∧
    c.char_ignore ≠ CHARACTER_BACKSPACE ∧ c.char_ignore ≠ CHARACTER_DELETE ∧
    c.char_ignore ≠ c.char_eol := by
  rcases h with ⟨h1, h2⟩ | ⟨h1, h2⟩ <;>
  · rw [h1, h2]
    simp [CHARACTER_RETURN, CHARACTER_NEWLINE, CHARACTER_BACKSPACE, CHARACTER_DELETE]

/-- One DELETE or BACKSPACE byte received below the full mark. -/
theorem rx_loop_delete (c : cmdline_t) (buf echo : List Nat) (b : Nat) (rest : List Nat)
    (hmode : eol_configured c)
    (hroom : c.receive_char_index + 1 < c.config.receive_buffer_size)
    (hb : b = CHARACTER_DELETE ∨ b = CHARACTER_BACKSPACE) :
    rx_loop c buf echo (b :: rest)
      = rx_loop (remove_last_entry_character_data c buf).1
          (remove_last_entry_character_data c buf).2 (echo ++ [b]) rest := by
  have hne := eol_configured_ne c hmode
  have hbe : b ≠ c.char_eol := by
    rcases hb with h | h
    · rw [h]; exact fun e => hne.2.1 e.symm
    · rw [h]; exact fun e => hne.1 e.symm
  have hend : is_end_of_character_or_buffer_detected c b = false := by
    simp only [is_end_of_character_or_buffer_detected]
    simp only [Bool.or_eq_false_iff, decide_eq_false_iff_not]
    exact ⟨by omega, hbe⟩
  simp only [rx_loop, hend, Bool.false_eq_true, if_false, hb, if_true]

/-- Any byte received at or beyond the full mark completes the line. -/
theorem rx_loop_full (c : cmdline_t) (buf echo : List Nat) (b : Nat) (rest : List Nat)
    (hfull : c.config.receive_buffer_size ≤ c.receive_char_index + 1) :
    rx_loop c buf echo (b :: rest)
      = ⟨true, c, terminate_receive_buffer c buf, echo ++ [b], rest⟩ := by
  have hend : is_end_of_character_or_buffer_detected c b = true := by
    simp only [is_end_of_character_or_buffer_detected]
    simp only [Bool.or_eq_true, decide_eq_true_eq]
    exact Or.inl (by omega)
  simp only [rx_loop, hend, if_true]

/-! ## C13 -/

/-- C13: in a session with a configured end-of-line pair, capacity at least 2 and cursor 0,
a received BACKSPACE or DELETE byte is only echoed: the loop goes on with the same session
and the same buffer, so the cursor stays 0, no slot is written and no line completes. -/
theorem delete_on_empty_line (c : cmdline_t) (env : Env) (b : Nat)
    (hmode : eol_configured c)
    (hcap : 2 ≤ c.config.receive_buffer_size)
    (hcur : c.receive_char_index = 0)
    (hb : b = CHARACTER_BACKSPACE ∨ b = CHARACTER_DELETE) :
    (∀ buf echo rest, rx_loop c buf echo (b :: rest) = rx_loop c buf (echo ++ [b]) rest) ∧
    (env.rx = [b] →
      process_rx_msg_complete c env
        = (false, c, { env with rx := [], tx := env.tx ++ [b] })) := by
  have hstep : ∀ buf echo rest,
      rx_loop c buf echo (b :: rest) = rx_loop c buf (echo ++ [b]) rest := by
    intro buf echo rest
    rw [rx_loop_delete c buf echo b rest hmode (by omega) hb.symm]
    simp only [remove_last_entry_character_data, hcur, if_true]
  refine ⟨hstep, ?_⟩
  intro hrx
  simp only [process_rx_msg_complete, hrx, hstep]
  simp [rx_loop]

theorem delete_on_empty_line_witness :
    process_rx_msg_complete sample_session (sample_env [127])
      = (false, sample_session, { sample_env [127] with rx := [], tx := [127] }) ∧
    process_rx_msg_complete sample_session (sample_env [8])
      = (false, sample_session, { sample_env [8] with rx := [], tx := [8] }) :=
  ⟨(delete_on_empty_line sample_session (sample_env [127]) 127 (Or.inl ⟨rfl, rfl⟩)
      (by decide) rfl (Or.inr rfl)).2 rfl,
   (delete_on_empty_line sample_session (sample_env [8]) 8 (Or.inl ⟨rfl, rfl⟩)
      (by decide) rfl (Or.inl rfl)).2 rfl⟩

/-! ## C14 -/

/-- Counterexample to C14 as stated: with a full buffer (cursor 15 of capacity 16) a received
DELETE byte completes the line; the cursor stays 15 and slot 14 keeps its byte. -/
theorem delete_on_full_buffer_completes :
    (process_rx_msg_complete full_session (full_env [127])).1 = true ∧
    (process_rx_msg_complete full_session (full_env [127])).2.1.receive_char_index = 15 ∧
    (process_rx_msg_complete full_session (full_env [127])).2.2.buf
      = List.replicate 15 97 ++ [0] ∧
    (process_rx_msg_complete sample_session
      (sample_env (List.replicate 15 97 ++ [127]))).1 = true ∧
    (process_rx_msg_complete sample_session
      (sample_env (List.replicate 15 97 ++ [127]))).2.1.receive_char_index = 15 := by
  decide

/-- C14 (amended): in a session with a configured end-of-line pair and
`0 < cursor < capacity - 1`, a received DELETE or BACKSPACE byte decrements the cursor,
zeroes the slot at the new cursor position, leaves every other slot unchanged and completes
no line (the loop goes on). At `cursor ≥ capacity - 1` the buffer-full test comes first: the
same byte completes the line, the cursor is not decremented and no slot below it changes. -/
theorem delete_below_full_mark (c : cmdline_t) (buf echo : List Nat) (b : Nat)
    (rest : List Nat)
    (hmode : eol_configured c)
    (hcur : 0 < c.receive_char_index)
    (hb : b = CHARACTER_DELETE ∨ b = CHARACTER_BACKSPACE) :
    ((c.receive_char_index : Int) < (c.config.receive_buffer_size : Int) - 1 →
      rx_loop c buf echo (b :: rest)
        = rx_loop { c with receive_char_index := c.receive_char_index - 1 }
            (buf.set (c.receive_char_index - 1) 0) (echo ++ [b]) rest ∧
      (∀ j, j ≠ c.receive_char_index - 1 →
        (buf.set (c.receive_char_index - 1) 0)[j]? = buf[j]?) ∧
      (c.receive_char_index - 1 < buf.length →
        (buf.set (c.receive_char_index - 1) 0)[c.receive_char_index - 1]? = some 0)) ∧
    ((c.receive_char_index : Int) ≥ (c.config.receive_buffer_size : Int) - 1 →
      rx_loop c buf echo (b :: rest)
        = ⟨true, c, terminate_receive_buffer c buf, echo ++ [b], rest⟩ ∧
      (terminate_receive_buffer c buf).take c.receive_char_index
        = buf.take c.receive_char_index) := by
  constructor
  · intro hroom
    refine ⟨?_, ?_, ?_⟩
    · rw [rx_loop_delete c buf echo b rest hmode (by omega) hb]
      have hz : ¬ c.receive_char_index = 0 := by omega
      simp only [remove_last_entry_character_data, hz, if_false]
    · intro j hj
      rw [List.getElem?_set_ne (fun h => hj h.symm)]
    · intro hlt
      rw [List.getElem?_set_self hlt]
  · intro hfull
    refine ⟨rx_loop_full c buf echo b rest (by omega), ?_⟩
    simp only [terminate_receive_buffer]
    exact zero_fill_take _ _ _ _ (Nat.le_refl _)

theorem delete_below_full_mark_witness :
    rx_loop { sample_session with receive_char_index := 2 } [97, 98, 85, 85] [] [127]
      = rx_loop { sample_session with receive_char_index := 1 } [97, 0, 85, 85] [127] [] ∧
    rx_loop full_session (full_env []).buf [] [127]
      = ⟨true, full_session, List.replicate 15 97 ++ [0], [127], []⟩ := by
  have h := delete_below_full_mark { sample_session with receive_char_index := 2 }
    [97, 98, 85, 85] [] 127 [] (Or.inl ⟨rfl, rfl⟩) (by decide) (Or.inl rfl)
  have h2 := delete_below_full_mark full_session (full_env []).buf [] 127 []
    (Or.inl ⟨rfl, rfl⟩) (by decide) (Or.inl rfl)
  exact ⟨(h.1 (by decide)).1, (h2.2 (by decide)).1⟩

/-! ## One call of `cmdline_process_msg`, unfolded -/

theorem process_msg_incomplete (s : cmdline_t) (env : Env) (hinit : s.initialized = true)
    (h : (process_rx_msg_complete s env).1 = false) :
    cmdline_process_msg (some s) env
      = (CMDLINE_OK, some (process_rx_msg_complete s env).2.1,
          (process_rx_msg_complete s env).2.2) := by
  simp only [cmdline_process_msg, hinit, Bool.true_eq_false, if_false, h, if_true]

theorem process_msg_complete (s : cmdline_t) (env : Env) (hinit : s.initialized = true)
    (h : (process_rx_msg_complete s env).1 = true) :
    cmdline_process_msg (some s) env
      = (CMDLINE_OK,
          some (clear_receive_buffer
            (cmdline_process (process_rx_msg_complete s env).2.1
              (process_rx_msg_complete s env).2.2).2.1
            (send_command_line_status
              (cmdline_process (process_rx_msg_complete s env).2.1
                (process_rx_msg_complete s env).2.2).1
              (cmdline_process (process_rx_msg_complete s env).2.1
                (process_rx_msg_complete s env).2.2).2.2)).1,
          (clear_receive_buffer
            (cmdline_process (process_rx_msg_complete s env).2.1
              (process_rx_msg_complete s env).2.2).2.1
            (send_command_line_status
              (cmdline_process (process_rx_msg_complete s env).2.1
                (process_rx_msg_complete s env).2.2).1
              (cmdline_process (process_rx_msg_complete s env).2.1
                (process_rx_msg_complete s env).2.2).2.2)).2) := by
  simp only [cmdline_process_msg, hinit, Bool.true_eq_false, if_false, h]

/-- The status writer appends the message of the clamped status code, then CR and LF, and
touches nothing else. -/
theorem send_status_env (status : Nat) (env : Env) :
    (send_command_line_status status env).tx
      = env.tx ++ cmdline_status_msg
          (if status ≥ CMDLINE_TOTAL_STATUS then CMDLINE_BAD_CMD else status)
        ++ [CHARACTER_RETURN, CHARACTER_NEWLINE] ∧
    (if status ≥ CMDLINE_TOTAL_STATUS then CMDLINE_BAD_CMD else status) < CMDLINE_TOTAL_STATUS ∧
    (send_command_line_status status env).buf = env.buf ∧
    (send_command_line_status status env).rx = env.rx ∧
    (send_command_line_status status env).calls = env.calls := by
  have hc : ∀ k, k < 6 → c_str (cmdline_status_msg k) 0 = cmdline_status_msg k := by
    intro k hk
    interval_cases k <;> decide
  refine ⟨?_, ?_, rfl, rfl, rfl⟩
  · simp only [send_command_line_status, CMDLINE_TOTAL_STATUS, CMDLINE_BAD_CMD]
    split
    · rw [hc 4 (by omega)]
    · rw [hc status (by omega)]
  · simp only [CMDLINE_TOTAL_STATUS, CMDLINE_BAD_CMD]
    split <;> omega

/-- The fields of the session that `cmdline_process` leaves alone. -/
theorem cmdline_process_session (c : cmdline_t) (env : Env) :
    (cmdline_process c env).2.1.char_eol = c.char_eol ∧
    (cmdline_process c env).2.1.char_ignore = c.char_ignore ∧
    (cmdline_process c env).2.1.initialized = c.initialized ∧
    (cmdline_process c env).2.1.receive_char_index = c.receive_char_index := by
  simp only [cmdline_process]
  split
  · exact ⟨rfl, rfl, rfl, rfl⟩
  · split <;> exact ⟨rfl, rfl, rfl, rfl⟩

/-- A call on an initialized session returns a session with the same configuration, the same
end-of-line pair and the flag still set. -/
theorem process_msg_session (s : cmdline_t) (env : Env) (hinit : s.initialized = true) :
    ∃ s2, (cmdline_process_msg (some s) env).2.1 = some s2 ∧ s2.config = s.config ∧
      s2.char_eol = s.char_eol ∧ s2.char_ignore = s.char_ignore ∧
      s2.initialized = true ∧
      ((process_rx_msg_complete s env).1 = true → s2.receive_char_index = 0) ∧
      ((process_rx_msg_complete s env).1 = false →
        s2.receive_char_index = (process_rx_msg_complete s env).2.1.receive_char_index) := by
  have hses := rx_loop_session env.rx s env.buf []
  have hR : (process_rx_msg_complete s env).2.1 = (rx_loop s env.buf [] env.rx).cmdline := rfl
  have hcfg : (process_rx_msg_complete s env).2.1.config = s.config := by rw [hR, hses]
  have heol : (process_rx_msg_complete s env).2.1.char_eol = s.char_eol := by rw [hR, hses]
  have hign : (process_rx_msg_complete s env).2.1.char_ignore = s.char_ignore := by
    rw [hR, hses]
  have hini : (process_rx_msg_complete s env).2.1.initialized = true := by
    rw [hR, hses]; exact hinit
  by_cases hdone : (process_rx_msg_complete s env).1 = true
  · rw [process_msg_complete s env hinit hdone]
    have hp := cmdline_process_session (process_rx_msg_complete s env).2.1
      (process_rx_msg_complete s env).2.2
    have hf := cmdline_process_frame (process_rx_msg_complete s env).2.1
      (process_rx_msg_complete s env).2.2
    refine ⟨_, rfl, ?_, ?_, ?_, ?_, ?_, ?_⟩
    · simp only [clear_receive_buffer]; rw [hf.1, hcfg]
    · simp only [clear_receive_buffer]; rw [hp.1, heol]
    · simp only [clear_receive_buffer]; rw [hp.2.1, hign]
    · simp only [clear_receive_buffer]; rw [hp.2.2.1, hini]
    · intro _; rfl
    · intro h; rw [hdone] at h; cases h
  · have hdone2 : (process_rx_msg_complete s env).1 = false := by
      simpa using hdone
    rw [process_msg_incomplete s env hinit hdone2]
    exact ⟨_, rfl, hcfg, heol, hign, hini, fun h => absurd h hdone, fun _ => rfl⟩

/-! ## The terminator fill, slot by slot -/

theorem zero_fill_getElem (k : Nat) : ∀ (buf : List Nat) (i j : Nat),
    (zero_fill buf i k)[j]?
      = if i ≤ j ∧ j < i + k then buf[j]?.map (fun _ => 0) else buf[j]? := by
  induction k with
  | zero =>
    intro buf i j
    have : ¬ (i ≤ j ∧ j < i + 0) := by omega
    simp only [zero_fill, this, if_false]
  | succ k ih =>
    intro buf i j
    simp only [zero_fill]
    rw [ih]
    by_cases hij : j = i
    · subst hij
      have h1 : ¬ (j + 1 ≤ j ∧ j < j + 1 + k) := by omega
      have h2 : j ≤ j ∧ j < j + (k + 1) := by omega
      simp only [h1, h2, if_false, if_true]
      by_cases hlt : j < buf.length
      · rw [List.getElem?_set_self hlt, List.getElem?_eq_getElem hlt]
        rfl
      · have hge : buf.length ≤ j := by omega
        rw [List.getElem?_eq_none (by simpa using hge), List.getElem?_eq_none hge]
        rfl
    · rw [List.getElem?_set_ne (fun h => hij h.symm)]
      by_cases hc : i + 1 ≤ j ∧ j < i + 1 + k
      · have hc2 : i ≤ j ∧ j < i + (k + 1) := by omega
        simp only [hc, hc2, and_self, if_true]
      · have hc2 : ¬ (i ≤ j ∧ j < i + (k + 1)) := by omega
        simp only [hc, hc2, if_false]

/-- Slots from the cursor up to `receive_buffer_size - 1` read zero after the fill. -/
theorem terminate_zero (c : cmdline_t) (buf : List Nat) (j : Nat)
    (h1 : c.receive_char_index ≤ j) (h2 : j < c.config.receive_buffer_size)
    (h3 : j < buf.length) : (terminate_receive_buffer c buf)[j]? = some 0 := by
  simp only [terminate_receive_buffer]
  rw [zero_fill_getElem]
  have : c.receive_char_index ≤ j ∧
      j < c.receive_char_index + (c.config.receive_buffer_size - c.receive_char_index) := by
    omega
  rw [if_pos this, List.getElem?_eq_getElem h3]
  rfl

/-- Slots below the cursor and slots from `receive_buffer_size` on keep their content. -/
theorem terminate_other (c : cmdline_t) (buf : List Nat) (j : Nat)
    (h : j < c.receive_char_index ∨ c.config.receive_buffer_size ≤ j) :
    (terminate_receive_buffer c buf)[j]? = buf[j]? := by
  simp only [terminate_receive_buffer]
  rw [zero_fill_getElem]
  have : ¬ (c.receive_char_index ≤ j ∧
      j < c.receive_char_index + (c.config.receive_buffer_size - c.receive_char_index)) := by
    omega
  rw [if_neg this]

/-- Ordinary bytes that fill the buffer up to its last slot, followed by one more byte: the
line completes on that byte, whatever it is, and the byte is not stored. -/
theorem rx_loop_fill (c : cmdline_t) (buf echo w : List Nat) (b : Nat) (rest : List Nat)
    (hsz : c.config.receive_buffer_size < 65536)
    (hcur : c.receive_char_index = 0)
    (hbuf : c.config.receive_buffer_size ≤ buf.length)
    (hw : ∀ x ∈ w, ordinary c x)
    (hlen : w.length + 1 = c.config.receive_buffer_size) :
    (rx_loop c buf echo (w ++ b :: rest)).complete = true ∧
    (rx_loop c buf echo (w ++ b :: rest)).rest = rest ∧
    (rx_loop c buf echo (w ++ b :: rest)).echo = echo ++ w ++ [b] ∧
    (rx_loop c buf echo (w ++ b :: rest)).cmdline.receive_char_index = w.length ∧
    (rx_loop c buf echo (w ++ b :: rest)).buf.take w.length = w ∧
    (rx_loop c buf echo (w ++ b :: rest)).buf[w.length]? = some 0 := by
  have h := rx_loop_ordinary c.config.receive_buffer_size hsz w [] c buf echo rfl
    (by simpa using hcur) (by simp) hbuf hw (by simp only [List.length_nil]; omega)
  simp only [List.length_nil, Nat.zero_add, List.nil_append] at h
  obtain ⟨h1, _, h3, h4, h5⟩ := h
  have hcfg : (rx_loop c buf echo w).cmdline.config = c.config := (rx_loop_config w c buf echo).1
  have hlb : (rx_loop c buf echo w).buf.length = buf.length := rx_loop_buf_length w c buf echo
  rw [(rx_loop_append (b :: rest) w c buf echo h1).2,
    rx_loop_full _ _ _ b rest (by rw [hcfg, h4]; omega)]
  refine ⟨rfl, rfl, by rw [h3], h4, ?_, ?_⟩
  · simp only [terminate_receive_buffer]
    rw [zero_fill_take _ _ _ _ (by omega)]
    exact h5
  · exact terminate_zero _ _ _ (by omega) (by rw [hcfg]; omega) (by rw [hlb]; omega)

/-! ## C12 -/

theorem foldl_edit_step_plain (ign : Nat) : ∀ (w kept : List Nat),
    (∀ x ∈ w, x ≠ 127 ∧ x ≠ 8 ∧ x ≠ ign) →
    w.foldl (edit_step ign) kept = kept ++ w := by
  intro w
  induction w with
  | nil => intro kept _; simp
  | cons b w ih =>
    intro kept h
    obtain ⟨h1, h2, h3⟩ := h b (by simp)
    have hstep : edit_step ign kept b = kept ++ [b] := by
      unfold edit_step
      rw [if_neg (by intro h; rcases h with h | h; exact h1 h; exact h2 h), if_neg h3]
    rw [List.foldl_cons, hstep, ih _ (fun x hx => h x (by simp [hx]))]
    simp

/-- The companion byte received below the full mark is only echoed. -/
theorem rx_loop_ignore (c : cmdline_t) (buf echo : List Nat) (rest : List Nat)
    (hmode : eol_configured c)
    (hroom : c.receive_char_index + 1 < c.config.receive_buffer_size) :
    rx_loop c buf echo (c.char_ignore :: rest)
      = rx_loop c buf (echo ++ [c.char_ignore]) rest := by
  have hne := eol_configured_ne c hmode
  have hend : is_end_of_character_or_buffer_detected c c.char_ignore = false := by
    simp only [is_end_of_character_or_buffer_detected]
    simp only [Bool.or_eq_false_iff, decide_eq_false_iff_not]
    exact ⟨by omega, hne.2.2.2.2⟩
  have hdel : ¬ (c.char_ignore = CHARACTER_DELETE ∨ c.char_ignore = CHARACTER_BACKSPACE) := by
    intro h
    rcases h with h | h
    · exact hne.2.2.2.1 h
    · exact hne.2.2.1 h
  have hig : ¬ (c.char_ignore ≠ c.char_ignore) := fun h => h rfl
  simp only [rx_loop, hend, Bool.false_eq_true, if_false, hdel, if_neg hig]

/-! ## C11 -/

/-- C11: in both end-of-line modes, for a line `w` free of CR, LF, BACKSPACE and DELETE and
shorter than `capacity - 1`, feeding `w`, the terminator and then the companion byte to an
empty initialized session gives: the first call completes the line `w` and appends exactly
one status reply to what was written up to the end of the dispatch (with handlers that write
nothing the whole output is the echo of `w` and the terminator followed by that reply),
leaving the companion byte pending; the second call only echoes the companion byte,
completes no line, writes no status, leaves the buffer and the session as they were
(cursor 0) and drains the input. -/
theorem crlf_pair_is_one_line_end (s : cmdline_t) (env : Env) (w : List Nat)
    (hinit : s.initialized = true)
    (hmode : eol_configured s)
    (hcur : s.receive_char_index = 0)
    (hsz : s.config.receive_buffer_size < 65536)
    (hbuf : s.config.receive_buffer_size ≤ env.buf.length)
    (hw : ∀ x ∈ w, x ≠ CHARACTER_RETURN ∧ x ≠ CHARACTER_NEWLINE ∧ x ≠ CHARACTER_BACKSPACE ∧
      x ≠ CHARACTER_DELETE)
    (hlen : (w.length : Int) < (s.config.receive_buffer_size : Int) - 1)
    (hrx : env.rx = w ++ [s.char_eol, s.char_ignore]) :
    (process_rx_msg_complete s env).1 = true ∧
    (process_rx_msg_complete s env).2.1.receive_char_index = w.length ∧
    (process_rx_msg_complete s env).2.2.buf.take w.length = w ∧
    (cmdline_process_msg (some s) env).2.2.rx = [s.char_ignore] ∧
    ∃ s1 status, (cmdline_process_msg (some s) env).2.1 = some s1 ∧
      s1.receive_char_index = 0 ∧
      status < CMDLINE_TOTAL_STATUS ∧
      (cmdline_process_msg (some s) env).2.2.tx
        = (cmdline_process (process_rx_msg_complete s env).2.1
            (process_rx_msg_complete s env).2.2).2.2.tx
          ++ cmdline_status_msg status ++ [CHARACTER_RETURN, CHARACTER_NEWLINE] ∧
      ((∀ table, s.config.cmdline_entry = some table →
          ∀ e ∈ table, ∀ a v b, (e.pfnCmd a v b).2 = []) →
        (cmdline_process_msg (some s) env).2.2.tx
          = env.tx ++ w ++ [s.char_eol] ++ cmdline_status_msg status
              ++ [CHARACTER_RETURN, CHARACTER_NEWLINE]) ∧
      (process_rx_msg_complete s1 (cmdline_process_msg (some s) env).2.2).1 = false ∧
      cmdline_process_msg (some s1) (cmdline_process_msg (some s) env).2.2
        = (CMDLINE_OK, some s1,
            { (cmdline_process_msg (some s) env).2.2 with
              rx := []
              tx := (cmdline_process_msg (some s) env).2.2.tx ++ [s.char_ignore] }) := by
  have hplain : ∀ x ∈ w, x ≠ 127 ∧ x ≠ 8 ∧ x ≠ s.char_ignore := by
    intro x hx
    obtain ⟨h1, h2, h3, h4⟩ := hw x hx
    refine ⟨h4, h3, ?_⟩
    rcases hmode with ⟨_, hi⟩ | ⟨_, hi⟩ <;> rw [hi] <;> assumption
  have heol : s.char_eol ∉ w := by
    intro hmem
    obtain ⟨h1, h2, _, _⟩ := hw _ hmem
    rcases hmode with ⟨he, _⟩ | ⟨he, _⟩
    · exact h1 he
    · exact h2 he
  have hed := rx_loop_edits s.char_eol s.char_ignore s.config.receive_buffer_size
    [s.char_ignore] hsz w [] s env.buf [] rfl rfl rfl (by simpa using hcur) (by simp) hbuf heol
    (by simp only [List.length_nil]; omega)
  rw [foldl_edit_step_plain s.char_ignore w [] hplain] at hed
  simp only [List.nil_append] at hed
  obtain ⟨h1, h2, h3, h4, h5⟩ := hed
  have hrx2 : env.rx = w ++ s.char_eol :: [s.char_ignore] := hrx
  have hdone : (process_rx_msg_complete s env).1 = true := by
    simp only [process_rx_msg_complete, hrx2]; exact h1
  have hRrx : (process_rx_msg_complete s env).2.2.rx = [s.char_ignore] := by
    simp only [process_rx_msg_complete, hrx2]; exact h2
  have hRtx : (process_rx_msg_complete s env).2.2.tx = env.tx ++ w ++ [s.char_eol] := by
    simp only [process_rx_msg_complete, hrx2, h3, List.append_assoc]
  have hcfg : (process_rx_msg_complete s env).2.1.config = s.config :=
    (rx_loop_config env.rx s env.buf []).1
  have hfr := cmdline_process_frame (process_rx_msg_complete s env).2.1
    (process_rx_msg_complete s env).2.2
  have hst := send_status_env
    (cmdline_process (process_rx_msg_complete s env).2.1
      (process_rx_msg_complete s env).2.2).1
    (cmdline_process (process_rx_msg_complete s env).2.1
      (process_rx_msg_complete s env).2.2).2.2
  have hfirst := process_msg_complete s env hinit hdone
  obtain ⟨s1, hs1, hc1, he1, hi1, hin1, hcur1, _⟩ := process_msg_session s env hinit
  have hcur0 : s1.receive_char_index = 0 := hcur1 hdone
  have hrx1 : (cmdline_process_msg (some s) env).2.2.rx = [s.char_ignore] := by
    rw [hfirst]
    simp only [clear_receive_buffer]
    rw [hst.2.2.2.1, hfr.2.2, hRrx]
  have htx1 : (cmdline_process_msg (some s) env).2.2.tx
      = (cmdline_process (process_rx_msg_complete s env).2.1
            (process_rx_msg_complete s env).2.2).2.2.tx ++ cmdline_status_msg
          (if (cmdline_process (process_rx_msg_complete s env).2.1
                (process_rx_msg_complete s env).2.2).1 ≥ CMDLINE_TOTAL_STATUS
            then CMDLINE_BAD_CMD
            else (cmdline_process (process_rx_msg_complete s env).2.1
                (process_rx_msg_complete s env).2.2).1)
          ++ [CHARACTER_RETURN, CHARACTER_NEWLINE] := by
    rw [hfirst]
    simp only [clear_receive_buffer]
    rw [hst.1]
  have htx2 : (∀ table, s.config.cmdline_entry = some table →
      ∀ e ∈ table, ∀ a v b, (e.pfnCmd a v b).2 = []) →
      (cmdline_process_msg (some s) env).2.2.tx
        = env.tx ++ w ++ [s.char_eol] ++ cmdline_status_msg
          (if (cmdline_process (process_rx_msg_complete s env).2.1
                (process_rx_msg_complete s env).2.2).1 ≥ CMDLINE_TOTAL_STATUS
            then CMDLINE_BAD_CMD
            else (cmdline_process (process_rx_msg_complete s env).2.1
                (process_rx_msg_complete s env).2.2).1)
          ++ [CHARACTER_RETURN, CHARACTER_NEWLINE] := by
    intro hquiet
    have htx := cmdline_process_tx (process_rx_msg_complete s env).2.1
      (process_rx_msg_complete s env).2.2 (by rw [hcfg]; exact hquiet)
    rw [htx1, htx, hRtx]
  have hmode1 : eol_configured s1 := by
    unfold eol_configured
    rw [he1, hi1]
    exact hmode
  have hloop : rx_loop s1 (cmdline_process_msg (some s) env).2.2.buf [] [s.char_ignore]
      = ⟨false, s1, (cmdline_process_msg (some s) env).2.2.buf, [s.char_ignore], []⟩ := by
    have := rx_loop_ignore s1 (cmdline_process_msg (some s) env).2.2.buf [] [] hmode1
      (by rw [hcur0, hc1]; omega)
    rw [hi1] at this
    rw [this]
    rfl
  have hdone2 : (process_rx_msg_complete s1 (cmdline_process_msg (some s) env).2.2).1
      = false := by
    simp only [process_rx_msg_complete, hrx1, hloop]
  refine ⟨hdone, ?_, ?_, hrx1, s1, _, hs1, hcur0, hst.2.1, htx1, htx2, hdone2, ?_⟩
  · simp only [process_rx_msg_complete, hrx2]; exact h4
  · simp only [process_rx_msg_complete, hrx2]; exact h5
  · rw [process_msg_incomplete s1 _ hin1 hdone2]
    simp only [process_rx_msg_complete, hrx1, hloop]

theorem crlf_pair_is_one_line_end_witness :
    ((process_rx_msg_complete sample_session (sample_env (str "cmd" ++ [13, 10]))).1 = true ∧
      (cmdline_process_msg (some sample_session) (sample_env (str "cmd" ++ [13, 10]))).2.2.rx
        = [10] ∧
      (cmdline_process_msg (some sample_session) (sample_env (str "cmd" ++ [13, 10]))).2.2.tx
        = str "cmd" ++ [13] ++ str "CMD OK" ++ [13, 10]) ∧
    ((process_rx_msg_complete sample_session_lf (sample_env (str "cmd" ++ [10, 13]))).1 = true ∧
      (cmdline_process_msg (some sample_session_lf)
        (sample_env (str "cmd" ++ [10, 13]))).2.2.rx = [13]) := by
  have h := crlf_pair_is_one_line_end sample_session (sample_env (str "cmd" ++ [13, 10]))
    (str "cmd") rfl (Or.inl ⟨rfl, rfl⟩) rfl (by decide) (by decide)
    (by decide) (by decide) rfl
  have h2 := crlf_pair_is_one_line_end sample_session_lf (sample_env (str "cmd" ++ [10, 13]))
    (str "cmd") rfl (Or.inr ⟨rfl, rfl⟩) rfl (by decide) (by decide)
    (by decide) (by decide) rfl
  exact ⟨⟨h.1, h.2.2.2.1, by decide⟩, ⟨h2.1, h2.2.2.2.1⟩⟩

/-! ## Stores stay below `receive_buffer_size` -/

theorem zero_fill_drop (k : Nat) : ∀ (buf : List Nat) (i m : Nat), i + k ≤ m →
    (zero_fill buf i k).drop m = buf.drop m := by
  induction k with
  | zero => intro buf i m _; rfl
  | succ k ih =>
    intro buf i m h
    simp only [zero_fill]
    rw [ih _ _ _ (by omega), List.drop_set_of_lt _ _ (by omega)]

theorem argc_loop_drop : ∀ (k i : Nat) (st : argc_state) (m : Nat), i + k ≤ m →
    (argc_loop k i st).buf.drop m = st.buf.drop m := by
  intro k
  induction k with
  | zero => intro i st m _; rfl
  | succ k ih =>
    intro i st m h
    have hstep : (is_argc_start_found st.buf i).2.drop m = st.buf.drop m := by
      simp only [is_argc_start_found]
      split
      · rfl
      · split
        · exact List.drop_set_of_lt _ _ (by omega)
        · split <;> rfl
    simp only [argc_loop]
    split
    · split
      · exact hstep
      · rw [ih _ _ _ (by omega)]; exact hstep
    · rw [ih _ _ _ (by omega)]; exact hstep

theorem memset_drop : ∀ (buf : List Nat) (v n : Nat), (memset buf v n).drop n = buf.drop n := by
  intro buf
  induction buf with
  | nil => intro v n; simp [memset]
  | cons b buf ih =>
    intro v n
    cases n with
    | zero => rfl
    | succ n => simp [memset, ih]

/-- The receive loop keeps the cursor at most `n - 1` and writes no slot from `n` on. -/
theorem rx_loop_bounds (n : Nat) (h1 : 1 ≤ n) (hn : n < 65536) :
    ∀ (pending : List Nat) (c : cmdline_t) (buf echo : List Nat),
    c.config.receive_buffer_size = n → c.receive_char_index ≤ n - 1 →
    (rx_loop c buf echo pending).cmdline.receive_char_index ≤ n - 1 ∧
    (rx_loop c buf echo pending).buf.drop n = buf.drop n := by
  intro pending
  induction pending with
  | nil => intro c buf echo _ hc; exact ⟨hc, rfl⟩
  | cons b pending ih =>
    intro c buf echo hsz hc
    simp only [rx_loop]
    by_cases hend : is_end_of_character_or_buffer_detected c b = true
    · simp only [hend, if_true]
      refine ⟨hc, ?_⟩
      simp only [terminate_receive_buffer]
      exact zero_fill_drop _ _ _ _ (by omega)
    · simp only [hend, Bool.false_eq_true, if_false]
      have hroom : c.receive_char_index + 1 < n := by
        simp only [is_end_of_character_or_buffer_detected, Bool.or_eq_true, decide_eq_true_eq,
          not_or, hsz] at hend
        omega
      by_cases hdel : b = CHARACTER_DELETE ∨ b = CHARACTER_BACKSPACE
      · simp only [hdel, if_true]
        have := ih (remove_last_entry_character_data c buf).1
          (remove_last_entry_character_data c buf).2 (echo ++ [b])
          (by simp only [remove_last_entry_character_data]; split <;> exact hsz)
          (by simp only [remove_last_entry_character_data]; split
              · exact hc
              · simp only []; omega)
        refine ⟨this.1, this.2.trans ?_⟩
        simp only [remove_last_entry_character_data]
        split
        · rfl
        · exact List.drop_set_of_lt _ _ (by omega)
      · simp only [hdel, if_false]
        by_cases hig : b ≠ c.char_ignore
        · simp only [if_pos hig]
          have := ih (add_received_byte_to_serial_msg c buf b).1
            (add_received_byte_to_serial_msg c buf b).2 (echo ++ [b]) hsz
            (by simp only [add_received_byte_to_serial_msg]; omega)
          refine ⟨this.1, this.2.trans ?_⟩
          simp only [add_received_byte_to_serial_msg]
          exact List.drop_set_of_lt _ _ (by omega)
        · simp only [if_neg hig]
          exact ih c buf (echo ++ [b]) hsz hc

theorem cmdline_process_drop (c : cmdline_t) (env : Env) (m : Nat)
    (h : c.receive_char_index ≤ m) :
    (cmdline_process c env).2.2.buf.drop m = env.buf.drop m := by
  have ht : (get_argc_count_from_cmd_msg c env.buf).2.2.drop m = env.buf.drop m := by
    simp only [get_argc_count_from_cmd_msg]
    exact argc_loop_drop _ _ _ _ (by omega)
  simp only [cmdline_process]
  split
  · rfl
  · split
    · exact ht
    · simp only [execute_matching_cmd_entry_return_status]
      rw [(scan_cmd_entries_env _ _ _ _ _).1]
      exact ht

/-- One call keeps the invariant: same configuration, cursor at most `n - 1`, and no slot
from `n` on is written. -/
theorem process_msg_bounds (n : Nat) (h1 : 1 ≤ n) (hn : n < 65536) (s : cmdline_t) (env : Env)
    (hinit : s.initialized = true) (hsz : s.config.receive_buffer_size = n)
    (hc : s.receive_char_index ≤ n - 1) :
    ∃ s2, (cmdline_process_msg (some s) env).2.1 = some s2 ∧
      s2.initialized = true ∧ s2.config.receive_buffer_size = n ∧
      s2.receive_char_index ≤ n - 1 ∧
      (cmdline_process_msg (some s) env).2.2.buf.drop n = env.buf.drop n ∧
      (cmdline_process_msg (some s) env).2.2.buf.length = env.buf.length := by
  obtain ⟨s2, hs2, hcfg, _, _, hin, hcd, hcn⟩ := process_msg_session s env hinit
  have hb := rx_loop_bounds n h1 hn env.rx s env.buf [] hsz hc
  have hlen1 : (process_rx_msg_complete s env).2.2.buf.length = env.buf.length :=
    rx_loop_buf_length env.rx s env.buf []
  have hRcfg : (process_rx_msg_complete s env).2.1.config = s.config :=
    (rx_loop_config env.rx s env.buf []).1
  refine ⟨s2, hs2, hin, by rw [hcfg]; exact hsz, ?_, ?_, ?_⟩
  · by_cases hdone : (process_rx_msg_complete s env).1 = true
    · rw [hcd hdone]; omega
    · rw [hcn (by simpa using hdone)]; exact hb.1
  · by_cases hdone : (process_rx_msg_complete s env).1 = true
    · rw [process_msg_complete s env hinit hdone]
      simp only [clear_receive_buffer, send_command_line_status]
      rw [(cmdline_process_frame _ _).1, hRcfg, hsz, memset_drop,
        cmdline_process_drop _ _ n (by exact Nat.le_trans hb.1 (by omega))]
      exact hb.2
    · rw [process_msg_incomplete s env hinit (by simpa using hdone)]
      exact hb.2
  · by_cases hdone : (process_rx_msg_complete s env).1 = true
    · rw [process_msg_complete s env hinit hdone]
      simp only [clear_receive_buffer, send_command_line_status, memset_length]
      rw [(cmdline_process_frame _ _).2.1, hlen1]
    · rw [process_msg_incomplete s env hinit (by simpa using hdone)]
      exact hlen1

theorem process_calls_bounds (n : Nat) (h1 : 1 ≤ n) (hn : n < 65536) :
    ∀ (batches : List (List Nat)) (s : cmdline_t) (env : Env),
    s.initialized = true → s.config.receive_buffer_size = n → s.receive_char_index ≤ n - 1 →
    (process_calls s env batches).1.initialized = true ∧
    (process_calls s env batches).1.config.receive_buffer_size = n ∧
    (process_calls s env batches).1.receive_char_index ≤ n - 1 ∧
    (process_calls s env batches).2.buf.drop n = env.buf.drop n ∧
    (process_calls s env batches).2.buf.length = env.buf.length := by
  intro batches
  induction batches with
  | nil => intro s env hinit hsz hc; exact ⟨hinit, hsz, hc, rfl, rfl⟩
  | cons batch more ih =>
    intro s env hinit hsz hc
    obtain ⟨s2, hs2, hin2, hsz2, hc2, hd2, hl2⟩ :=
      process_msg_bounds n h1 hn s { env with rx := env.rx ++ batch } hinit hsz hc
    simp only [process_calls]
    generalize hr : cmdline_process_msg (some s) { env with rx := env.rx ++ batch } = r at *
    obtain ⟨e, o, env2⟩ := r
    simp only at hs2 hd2 hl2
    subst hs2
    simp only []
    have := ih s2 env2 hin2 hsz2 hc2
    exact ⟨this.1, this.2.1, this.2.2.1, this.2.2.2.1.trans hd2, this.2.2.2.2.trans hl2⟩

/-! ## C15 -/

/-- C15: for a capacity `N ≥ 1` and an initialized session starting at cursor 0, after any
sequence of `cmdline_process_msg` calls on any input the cursor is at most `N - 1` and the
memory from index `N` on is as it was, whatever it held and however long it is: no store of
the editor, the terminator fill, the tokenizer or the clear lands at an index `≥ N`. The
byte store of `add_received_byte_to_serial_msg` is only reached with `cursor < N - 1`. -/
theorem cursor_stays_in_bounds (s : cmdline_t) (env : Env) (batches : List (List Nat))
    (hinit : s.initialized = true)
    (hcap : 1 ≤ s.config.receive_buffer_size)
    (hsz : s.config.receive_buffer_size < 65536)
    (hcur : s.receive_char_index = 0) :
    (process_calls s env batches).1.receive_char_index ≤ s.config.receive_buffer_size - 1 ∧
    (process_calls s env batches).1.config.receive_buffer_size
      = s.config.receive_buffer_size ∧
    (process_calls s env batches).2.buf.drop s.config.receive_buffer_size
      = env.buf.drop s.config.receive_buffer_size ∧
    (process_calls s env batches).2.buf.length = env.buf.length ∧
    (∀ (c : cmdline_t) (b : Nat),
      c.config.receive_buffer_size = s.config.receive_buffer_size →
      is_end_of_character_or_buffer_detected c b = false →
      c.receive_char_index + 1 < s.config.receive_buffer_size) := by
  have h := process_calls_bounds s.config.receive_buffer_size hcap hsz batches s env hinit rfl
    (by omega)
  refine ⟨h.2.2.1, h.2.1, h.2.2.2.1, h.2.2.2.2, ?_⟩
  intro c b hc hend
  simp only [is_end_of_character_or_buffer_detected, Bool.or_eq_false_iff,
    decide_eq_false_iff_not, hc] at hend
  omega

theorem cursor_stays_in_bounds_witness :
    (process_calls sample_session guarded_env
      [[97, 98], List.replicate 20 97, [13], str "cmd a" ++ [13], [8, 8, 99]]).1.receive_char_index
      ≤ 15 ∧
    (process_calls sample_session guarded_env
      [[97, 98], List.replicate 20 97, [13], str "cmd a" ++ [13], [8, 8, 99]]).2.buf.drop 16
      = [201, 202] := by
  have h := cursor_stays_in_bounds sample_session guarded_env
    [[97, 98], List.replicate 20 97, [13], str "cmd a" ++ [13], [8, 8, 99]]
    rfl (by decide) (by decide) rfl
  exact ⟨h.1, h.2.2.1⟩

/-! ## Drain policy -/

/-- When the receive loop completes a line it stopped right after the first byte at whose
arrival the end test held. -/
theorem rx_loop_first_complete : ∀ (pending : List Nat) (c : cmdline_t) (buf echo : List Nat),
    (rx_loop c buf echo pending).complete = true →
    ∃ pre b, pending = pre ++ b :: (rx_loop c buf echo pending).rest ∧
      (rx_loop c buf echo pre).complete = false ∧
      is_end_of_character_or_buffer_detected (rx_loop c buf echo pre).cmdline b = true := by
  intro pending
  induction pending with
  | nil => intro c buf echo h; simp [rx_loop] at h
  | cons b pending ih =>
    intro c buf echo h
    simp only [rx_loop] at h ⊢
    by_cases hend : is_end_of_character_or_buffer_detected c b = true
    · simp only [hend, if_true]
      exact ⟨[], b, rfl, rfl, hend⟩
    · simp only [hend, Bool.false_eq_true, if_false] at h ⊢
      by_cases hdel : b = CHARACTER_DELETE ∨ b = CHARACTER_BACKSPACE
      · simp only [hdel, if_true] at h ⊢
        obtain ⟨pre, x, h1, h2, h3⟩ := ih _ _ _ h
        refine ⟨b :: pre, x, by rw [List.cons_append, ← h1], ?_, ?_⟩
        · simp only [rx_loop, hend, Bool.false_eq_true, if_false, hdel, if_true]; exact h2
        · simp only [rx_loop, hend, Bool.false_eq_true, if_false, hdel, if_true]; exact h3
      · simp only [hdel, if_false] at h ⊢
        by_cases hig : b ≠ c.char_ignore
        · simp only [if_pos hig] at h ⊢
          obtain ⟨pre, x, h1, h2, h3⟩ := ih _ _ _ h
          refine ⟨b :: pre, x, by rw [List.cons_append, ← h1], ?_, ?_⟩
          · simp only [rx_loop, hend, Bool.false_eq_true, if_false, hdel, if_pos hig]
            exact h2
          · simp only [rx_loop, hend, Bool.false_eq_true, if_false, hdel, if_pos hig]
            exact h3
        · simp only [if_neg hig] at h ⊢
          obtain ⟨pre, x, h1, h2, h3⟩ := ih _ _ _ h
          refine ⟨b :: pre, x, by rw [List.cons_append, ← h1], ?_, ?_⟩
          · simp only [rx_loop, hend, Bool.false_eq_true, if_false, hdel, if_neg hig]
            exact h2
          · simp only [rx_loop, hend, Bool.false_eq_true, if_false, hdel, if_neg hig]
            exact h3

theorem scan_cmd_entries_calls (c : cmdline_t) (argc : Nat) (env : Env) :
    ∀ (table : List cmdline_entry_t) (idx : Nat),
    (scan_cmd_entries c argc env table idx).2.calls.length ≤ env.calls.length + 1 := by
  intro table
  induction table with
  | nil => intro idx; simp [scan_cmd_entries]
  | cons e table ih =>
    intro idx
    simp only [scan_cmd_entries]
    split
    · simp
    · split
      · simp
      · exact ih _

theorem cmdline_process_calls (c : cmdline_t) (env : Env) :
    (cmdline_process c env).2.2.calls.length ≤ env.calls.length + 1 := by
  simp only [cmdline_process]
  split
  · simp
  · split
    · simp
    · simp only [execute_matching_cmd_entry_return_status]
      exact scan_cmd_entries_calls _ _ _ _ _

/-! ## C16 -/

/-- C16: one `cmdline_process_msg` call on an initialized session consumes a prefix of the
pending input and leaves the rest unread. When no line completes the whole input is consumed
and no handler runs. When a line completes, the consumed bytes end with the first byte at
whose arrival the line-end test held (no byte before it completed a line), and at most one
handler invocation is recorded. -/
theorem drain_policy (s : cmdline_t) (env : Env) (hinit : s.initialized = true) :
    ∃ consumed, env.rx = consumed ++ (cmdline_process_msg (some s) env).2.2.rx ∧
      ((process_rx_msg_complete s env).1 = false →
        (cmdline_process_msg (some s) env).2.2.rx = [] ∧
        (cmdline_process_msg (some s) env).2.2.calls = env.calls) ∧
      ((process_rx_msg_complete s env).1 = true →
        ∃ pre b, consumed = pre ++ [b] ∧
          (process_rx_msg_complete s { env with rx := pre }).1 = false ∧
          is_end_of_character_or_buffer_detected
            (process_rx_msg_complete s { env with rx := pre }).2.1 b = true) ∧
      (cmdline_process_msg (some s) env).2.2.calls.length ≤ env.calls.length + 1 := by
  have hfr := cmdline_process_frame (process_rx_msg_complete s env).2.1
    (process_rx_msg_complete s env).2.2
  have hRrx : (process_rx_msg_complete s env).2.2.rx = (rx_loop s env.buf [] env.rx).rest := rfl
  by_cases hdone : (process_rx_msg_complete s env).1 = true
  · obtain ⟨pre, b, h1, h2, h3⟩ := rx_loop_first_complete env.rx s env.buf [] hdone
    have hrx : (cmdline_process_msg (some s) env).2.2.rx = (rx_loop s env.buf [] env.rx).rest := by
      rw [process_msg_complete s env hinit hdone]
      simp only [clear_receive_buffer, send_command_line_status]
      rw [hfr.2.2, hRrx]
    refine ⟨pre ++ [b], ?_, ?_, ?_, ?_⟩
    · rw [hrx, List.append_assoc]; exact h1
    · intro h; rw [hdone] at h; cases h
    · intro _; exact ⟨pre, b, rfl, h2, h3⟩
    · rw [process_msg_complete s env hinit hdone]
      simp only [clear_receive_buffer, send_command_line_status]
      exact cmdline_process_calls _ _
  · have hdone2 : (process_rx_msg_complete s env).1 = false := by simpa using hdone
    have hrest : (rx_loop s env.buf [] env.rx).rest = [] :=
      (rx_loop_append [] env.rx s env.buf [] hdone2).1
    rw [process_msg_incomplete s env hinit hdone2]
    refine ⟨env.rx, ?_, ?_, ?_, ?_⟩
    · rw [hRrx, hrest]; simp
    · intro _; exact ⟨by rw [hRrx, hrest], rfl⟩
    · intro h; exact absurd h hdone
    · simp [process_rx_msg_complete]

theorem drain_policy_witness :
    (cmdline_process_msg (some sample_session)
      (sample_env (str "x" ++ [13] ++ str "cmd" ++ [13]))).2.2.rx = str "cmd" ++ [13] ∧
    (cmdline_process_msg (some sample_session)
      (sample_env (str "x" ++ [13] ++ str "cmd" ++ [13]))).2.2.calls.length ≤ 1 := by
  have h := drain_policy sample_session (sample_env (str "x" ++ [13] ++ str "cmd" ++ [13])) rfl
  obtain ⟨consumed, _, _, _, h4⟩ := h
  exact ⟨by decide, h4⟩

/-! ## Where a status comes from -/

theorem scan_cmd_entries_status (c : cmdline_t) (argc : Nat) (env : Env) :
    ∀ (table : List cmdline_entry_t) (idx : Nat),
    (scan_cmd_entries c argc env table idx).1 = CMDLINE_BAD_CMD ∨
    ∃ e ∈ table, (scan_cmd_entries c argc env table idx).1
      = (e.pfnCmd argc c.ppcArgv env.buf).1 := by
  intro table
  induction table with
  | nil => intro idx; exact Or.inl rfl
  | cons e table ih =>
    intro idx
    simp only [scan_cmd_entries]
    split
    · exact Or.inl rfl
    · split
      · exact Or.inr ⟨e, by simp, rfl⟩
      · rcases ih (idx + 1) with h | ⟨e2, he2, h⟩
        · exact Or.inl h
        · exact Or.inr ⟨e2, by simp [he2], h⟩

/-- The status of a line is `NOT INITIALIZED`, `TOO FEW ARGS`, `BAD CMD`, or the value a
handler of the command table returned for the tokenized line. -/
theorem cmdline_process_status (c : cmdline_t) (env : Env) :
    (cmdline_process c env).1 = CMDLINE_NOT_INITIALIZED ∨
    (cmdline_process c env).1 = CMDLINE_TOO_FEW_ARGS ∨
    (cmdline_process c env).1 = CMDLINE_BAD_CMD ∨
    ∃ table e, c.config.cmdline_entry = some table ∧ e ∈ table ∧
      (cmdline_process c env).1
        = (e.pfnCmd (get_argc_count_from_cmd_msg c env.buf).1
            (get_argc_count_from_cmd_msg c env.buf).2.1.ppcArgv
            (get_argc_count_from_cmd_msg c env.buf).2.2).1 := by
  simp only [cmdline_process]
  split
  · exact Or.inl rfl
  · split
    · exact Or.inr (Or.inl rfl)
    · simp only [execute_matching_cmd_entry_return_status]
      cases ht : c.config.cmdline_entry with
      | none =>
        refine Or.inr (Or.inr (Or.inl ?_))
        simp [get_argc_count_from_cmd_msg, ht, scan_cmd_entries]
      | some table =>
        have hcfg : (get_argc_count_from_cmd_msg c env.buf).2.1.config.cmdline_entry
            = some table := ht
        rw [hcfg, Option.getD_some]
        rcases scan_cmd_entries_status (get_argc_count_from_cmd_msg c env.buf).2.1
          (get_argc_count_from_cmd_msg c env.buf).1
          { env with buf := (get_argc_count_from_cmd_msg c env.buf).2.2 } table 0 with h | h
        · exact Or.inr (Or.inr (Or.inl h))
        · obtain ⟨e, he, h⟩ := h
          exact Or.inr (Or.inr (Or.inr ⟨table, e, rfl, he, h⟩))

/-! ## C20 -/

/-- C20: when the status produced for a completed line is not one of the six vocabulary
codes (value `≥ CMDLINE_TOTAL_STATUS`), that status is the return value of a handler of the
command table, the status writer replaces it by `CMDLINE_BAD_CMD` before indexing the message
table, and the reply written for that line is exactly `BAD CMD` followed by CR, LF. -/
theorem out_of_range_status_reply (s : cmdline_t) (env : Env)
    (hinit : s.initialized = true)
    (hdone : (process_rx_msg_complete s env).1 = true)
    (hst : (cmdline_process (process_rx_msg_complete s env).2.1
      (process_rx_msg_complete s env).2.2).1 ≥ CMDLINE_TOTAL_STATUS) :
    (cmdline_process_msg (some s) env).2.2.tx
      = (cmdline_process (process_rx_msg_complete s env).2.1
          (process_rx_msg_complete s env).2.2).2.2.tx
        ++ str "BAD CMD" ++ [CHARACTER_RETURN, CHARACTER_NEWLINE] ∧
    (∀ (status : Nat) (e : Env), status ≥ CMDLINE_TOTAL_STATUS →
      send_command_line_status status e
        = { e with tx := e.tx ++ str "BAD CMD" ++ [CHARACTER_RETURN, CHARACTER_NEWLINE] }) ∧
    (∃ table e argc argv buf, s.config.cmdline_entry = some table ∧ e ∈ table ∧
      (cmdline_process (process_rx_msg_complete s env).2.1
        (process_rx_msg_complete s env).2.2).1 = (e.pfnCmd argc argv buf).1) := by
  have hsend : ∀ (status : Nat) (e : Env), status ≥ CMDLINE_TOTAL_STATUS →
      send_command_line_status status e
        = { e with tx := e.tx ++ str "BAD CMD" ++ [CHARACTER_RETURN, CHARACTER_NEWLINE] } := by
    intro status e h
    have hmsg : c_str (cmdline_status_msg CMDLINE_BAD_CMD) 0 = str "BAD CMD" := by decide
    simp only [send_command_line_status, h, if_true, hmsg]
  have hcfg : (process_rx_msg_complete s env).2.1.config = s.config :=
    (rx_loop_config env.rx s env.buf []).1
  refine ⟨?_, hsend, ?_⟩
  · rw [process_msg_complete s env hinit hdone]
    simp only [clear_receive_buffer]
    rw [hsend _ _ hst]
  · rcases cmdline_process_status (process_rx_msg_complete s env).2.1
      (process_rx_msg_complete s env).2.2 with h | h | h | ⟨table, e, h1, h2, h3⟩
    · rw [h] at hst; simp [CMDLINE_TOTAL_STATUS, CMDLINE_NOT_INITIALIZED] at hst
    · rw [h] at hst; simp [CMDLINE_TOTAL_STATUS, CMDLINE_TOO_FEW_ARGS] at hst
    · rw [h] at hst; simp [CMDLINE_TOTAL_STATUS, CMDLINE_BAD_CMD] at hst
    · rw [hcfg] at h1
      exact ⟨table, e, _, _, _, h1, h2, h3⟩

theorem out_of_range_status_reply_witness :
    (cmdline_process (process_rx_msg_complete sample_session (sample_env [120, 13])).2.1
      (process_rx_msg_complete sample_session (sample_env [120, 13])).2.2).1 = 7 ∧
    (cmdline_process_msg (some sample_session) (sample_env [120, 13])).2.2.tx
      = [120, 13] ++ str "BAD CMD" ++ [13, 10] := by
  have h := out_of_range_status_reply sample_session (sample_env [120, 13]) rfl (by decide)
    (by decide)
  have htx : (cmdline_process (process_rx_msg_complete sample_session
      (sample_env [120, 13])).2.1 (process_rx_msg_complete sample_session
      (sample_env [120, 13])).2.2).2.2.tx = [120, 13] := by decide
  have h1 := h.1
  rw [htx] at h1
  exact ⟨by decide, h1⟩

/-! ## What the tokenizer keeps -/

/-- A slot that reads zero still reads zero after the tokenizer loop. -/
theorem argc_loop_zero : ∀ (k i : Nat) (st : argc_state) (m : Nat),
    st.buf[m]? = some 0 → (argc_loop k i st).buf[m]? = some 0 := by
  intro k
  induction k with
  | zero => intro i st m h; exact h
  | succ k ih =>
    intro i st m h
    have hstep : (is_argc_start_found st.buf i).2[m]? = some 0 := by
      simp only [is_argc_start_found]
      split
      · exact h
      · split
        · by_cases hm : m = i
          · subst hm
            have hlt : m < st.buf.length := by
              by_contra hge
              rw [List.getElem?_eq_none (by omega)] at h
              cases h
            rw [List.getElem?_set_self hlt]
          · rw [List.getElem?_set_ne (fun e => hm e.symm)]; exact h
        · split <;> exact h
    simp only [argc_loop]
    split
    · split
      · exact hstep
      · exact ih _ _ _ hstep
    · exact ih _ _ _ hstep

/-- The tokenizer loop records at most eight starts, each an index it visited. -/
theorem argc_loop_slots (bound : Nat) : ∀ (k i : Nat) (st : argc_state),
    i + k ≤ bound → st.argc_counter ≤ 8 → (∀ j, j < st.argc_counter → st.ppcArgv j < bound) →
    (argc_loop k i st).argc_counter ≤ 8 ∧
    ∀ j, j < (argc_loop k i st).argc_counter → (argc_loop k i st).ppcArgv j < bound := by
  intro k
  induction k with
  | zero => intro i st _ h8 h; exact ⟨h8, h⟩
  | succ k ih =>
    intro i st hb h8 h
    simp only [argc_loop, CMDLINE_MAX_ARGS]
    split
    · split
      · exact ⟨h8, h⟩
      · rename_i hlt
        have hlt2 : st.argc_counter < 8 := by omega
        have hmod : (st.argc_counter + 1) % 256 = st.argc_counter + 1 := by omega
        apply ih
        · omega
        · simp only [hmod]; omega
        · intro j hj
          simp only [hmod] at hj
          simp only []
          split
          · omega
          · exact h j (by omega)
    · exact ih _ _ (by omega) h8 h

/-! ## C18 -/

/-- C18: for any prior buffer content `terminate_receive_buffer` makes every slot from the
cursor up to `receive_buffer_size - 1` zero and leaves the slots below the cursor (and those
beyond the capacity) as they were; the completing step of the receive loop returns the
session with its cursor unchanged. With a capacity of at least 1 the receive loop keeps the
cursor below the capacity; then slot `cursor` is zeroed, and every argument the tokenizer
records afterwards starts below the cursor in a buffer whose slot `cursor` still reads
zero, so each token is NUL-terminated inside the buffer. -/
theorem terminator_fill (c : cmdline_t) (buf : List Nat)
    (hbuf : c.config.receive_buffer_size ≤ buf.length) :
    (∀ j, c.receive_char_index ≤ j → j < c.config.receive_buffer_size →
      (terminate_receive_buffer c buf)[j]? = some 0) ∧
    (∀ j, j < c.receive_char_index ∨ c.config.receive_buffer_size ≤ j →
      (terminate_receive_buffer c buf)[j]? = buf[j]?) ∧
    (∀ b echo rest, is_end_of_character_or_buffer_detected c b = true →
      rx_loop c buf echo (b :: rest)
        = ⟨true, c, terminate_receive_buffer c buf, echo ++ [b], rest⟩) ∧
    (1 ≤ c.config.receive_buffer_size → c.config.receive_buffer_size < 65536 →
      ∀ (pending : List Nat) (s0 : cmdline_t) (buf0 echo : List Nat),
        s0.config.receive_buffer_size = c.config.receive_buffer_size →
        s0.receive_char_index ≤ c.config.receive_buffer_size - 1 →
        (rx_loop s0 buf0 echo pending).cmdline.receive_char_index
          < c.config.receive_buffer_size) ∧
    (c.receive_char_index < c.config.receive_buffer_size →
      (terminate_receive_buffer c buf)[c.receive_char_index]? = some 0 ∧
      (get_argc_count_from_cmd_msg c (terminate_receive_buffer c buf)).2.2[c.receive_char_index]?
        = some 0 ∧
      ∀ k, k < (get_argc_count_from_cmd_msg c (terminate_receive_buffer c buf)).1 →
        (get_argc_count_from_cmd_msg c (terminate_receive_buffer c buf)).2.1.ppcArgv k
          < c.receive_char_index) := by
  refine ⟨?_, ?_, ?_, ?_, ?_⟩
  · intro j h1 h2
    exact terminate_zero c buf j h1 h2 (by omega)
  · intro j h
    exact terminate_other c buf j h
  · intro b echo rest hend
    simp only [rx_loop, hend, if_true]
  · intro h1 hn pending s0 buf0 echo hs0 hc0
    have := (rx_loop_bounds c.config.receive_buffer_size h1 hn pending s0 buf0 echo hs0 hc0).1
    omega
  · intro hlt
    have hz := terminate_zero c buf c.receive_char_index (Nat.le_refl _) hlt (by omega)
    refine ⟨hz, ?_, ?_⟩
    · simp only [get_argc_count_from_cmd_msg]
      exact argc_loop_zero _ _ _ _ hz
    · intro k hk
      simp only [get_argc_count_from_cmd_msg] at hk ⊢
      exact (argc_loop_slots c.receive_char_index c.receive_char_index 0
        ⟨terminate_receive_buffer c buf, c.ppcArgv, 0⟩ (by omega) (by simp)
        (by intro j hj; simp at hj)).2 k hk

theorem terminator_fill_witness :
    terminate_receive_buffer { sample_session with receive_char_index := 5 }
        (str "cmd a" ++ List.replicate 11 85)
      = str "cmd a" ++ List.replicate 11 0 ∧
    (get_argc_count_from_cmd_msg { sample_session with receive_char_index := 5 }
      (terminate_receive_buffer { sample_session with receive_char_index := 5 }
        (str "cmd a" ++ List.replicate 11 85))).2.2[5]? = some 0 := by
  have h := terminator_fill { sample_session with receive_char_index := 5 }
    (str "cmd a" ++ List.replicate 11 85) (by decide)
  exact ⟨by decide, (h.2.2.2.2 (by decide)).2.1⟩

/-! ## A new line after a completed one -/

/-- After a call that completed a line every slot below `receive_buffer_size` reads zero. -/
theorem process_msg_cleared (s : cmdline_t) (env : Env) (hinit : s.initialized = true)
    (hbuf : s.config.receive_buffer_size ≤ env.buf.length)
    (hdone : (process_rx_msg_complete s env).1 = true) :
    ∀ i, i < s.config.receive_buffer_size →
      (cmdline_process_msg (some s) env).2.2.buf[i]? = some 0 := by
  have hcfg : (process_rx_msg_complete s env).2.1.config = s.config :=
    (rx_loop_config env.rx s env.buf []).1
  have hlen1 : (process_rx_msg_complete s env).2.2.buf.length = env.buf.length :=
    rx_loop_buf_length env.rx s env.buf []
  have hfr := cmdline_process_frame (process_rx_msg_complete s env).2.1
    (process_rx_msg_complete s env).2.2
  intro i hi
  rw [process_msg_complete s env hinit hdone]
  simp only [clear_receive_buffer, send_command_line_status]
  apply memset_zero
  · rw [hfr.1, hcfg]; exact hi
  · rw [hfr.2.1, hlen1]; omega

/-- Ordinary bytes received at cursor 0: up to `capacity - 1` of them are stored, and the
line completes exactly when at least `capacity` bytes are pending. -/
theorem rx_loop_new_line (c : cmdline_t) (buf echo r : List Nat)
    (hsz : c.config.receive_buffer_size < 65536)
    (h1 : 1 ≤ c.config.receive_buffer_size)
    (hcur : c.receive_char_index = 0)
    (hbuf : c.config.receive_buffer_size ≤ buf.length)
    (hr : ∀ x ∈ r, ordinary c x) :
    (rx_loop c buf echo r).cmdline.receive_char_index
      = min r.length (c.config.receive_buffer_size - 1) ∧
    (rx_loop c buf echo r).buf.take (min r.length (c.config.receive_buffer_size - 1))
      = r.take (c.config.receive_buffer_size - 1) ∧
    ((rx_loop c buf echo r).complete = true ↔ c.config.receive_buffer_size ≤ r.length) := by
  by_cases hshort : r.length + 1 ≤ c.config.receive_buffer_size
  · have h := rx_loop_ordinary c.config.receive_buffer_size hsz r [] c buf echo rfl
      (by simpa using hcur) (by simp) hbuf hr (by simp only [List.length_nil]; omega)
    simp only [List.length_nil, Nat.zero_add, List.nil_append] at h
    obtain ⟨ha, _, _, hd, he⟩ := h
    have hmin : min r.length (c.config.receive_buffer_size - 1) = r.length := by omega
    have htk : r.take (c.config.receive_buffer_size - 1) = r :=
      List.take_of_length_le (by omega)
    rw [hmin, htk]
    refine ⟨hd, he, ?_⟩
    rw [ha]
    constructor
    · intro h; cases h
    · intro h; omega
  · have hsplit : r = r.take (c.config.receive_buffer_size - 1)
        ++ r.drop (c.config.receive_buffer_size - 1) := (List.take_append_drop _ _).symm
    have hlt : (r.take (c.config.receive_buffer_size - 1)).length
        = c.config.receive_buffer_size - 1 := by
      rw [List.length_take]; omega
    cases hd : r.drop (c.config.receive_buffer_size - 1) with
    | nil =>
      have := congrArg List.length hd
      simp only [List.length_drop, List.length_nil] at this
      omega
    | cons b2 rest2 =>
      rw [hd] at hsplit
      have hf := rx_loop_fill c buf echo (r.take (c.config.receive_buffer_size - 1)) b2 rest2
        hsz hcur hbuf (fun x hx => hr x (List.mem_of_mem_take hx)) (by rw [hlt]; omega)
      rw [← hsplit, hlt] at hf
      obtain ⟨ha, _, _, hd2, he, _⟩ := hf
      have hmin : min r.length (c.config.receive_buffer_size - 1)
          = c.config.receive_buffer_size - 1 := by omega
      rw [hmin]
      refine ⟨hd2, he, ?_⟩
      rw [ha]
      constructor
      · intro _; omega
      · intro _; rfl

/-! ## Lines with more than eight words -/

theorem splitOnP_append_sep (p : Nat → Bool) (sep : Nat) (hsep : p sep = true)
    (y : List Nat) : ∀ x : List Nat,
    (x ++ sep :: y).splitOnP p = x.splitOnP p ++ y.splitOnP p := by
  intro x
  induction x with
  | nil => simp [List.splitOnP_cons, hsep]
  | cons a x ih =>
    rw [List.cons_append, List.splitOnP_cons, List.splitOnP_cons, ih]
    by_cases ha : p a = true
    · simp [ha]
    · simp only [ha, Bool.false_eq_true, if_false]
      cases hx : x.splitOnP p with
      | nil => exact absurd hx (List.splitOnP_ne_nil p x)
      | cons h t => rfl

theorem words_append_space (x y : List Nat) : words (x ++ 32 :: y) = words x ++ words y := by
  unfold words
  rw [splitOnP_append_sep _ 32 (by decide), List.filter_append]

theorem token_starts_append (l2 : List Nat) : ∀ (l1 : List Nat) (prev i : Nat),
    token_starts prev (l1 ++ l2) i
      = token_starts prev l1 i ++ token_starts (last_seen prev l1) l2 (i + l1.length) := by
  intro l1
  induction l1 with
  | nil => intro prev i; simp [token_starts, last_seen]
  | cons b l1 ih =>
    intro prev i
    have hi : i + (l1.length + 1) = i + 1 + l1.length := by omega
    by_cases hb : b = 32
    · subst hb
      simp only [List.cons_append, token_starts, if_true, last_seen, space_to_nul,
        List.length_cons]
      rw [hi]
      exact ih _ _
    · by_cases hp : prev = 0
      · simp only [List.cons_append, token_starts, hb, if_false, hp, if_true, last_seen,
          space_to_nul, List.length_cons]
        rw [hi]
        exact congrArg (List.cons i) (ih _ _)
      · simp only [List.cons_append, token_starts, hb, if_false, hp, last_seen,
          space_to_nul, List.length_cons]
        rw [hi]
        exact ih _ _

theorem last_seen_concat (c : Nat) : ∀ (l : List Nat) (prev : Nat),
    last_seen prev (l ++ [c]) = space_to_nul c := by
  intro l
  induction l with
  | nil => intro prev; rfl
  | cons b l ih => intro prev; simp only [List.cons_append, last_seen]; exact ih _

/-- A list with more than `m` token starts splits right before its start number `m`. -/
theorem split_at_token_start : ∀ (l : List Nat) (prev i m : Nat),
    m < (token_starts prev l i).length →
    ∃ l1 b l2, l = l1 ++ b :: l2 ∧ (token_starts prev l1 i).length = m ∧ b ≠ 32 ∧
      last_seen prev l1 = 0 := by
  intro l
  induction l with
  | nil => intro prev i m h; simp [token_starts] at h
  | cons c l ih =>
    intro prev i m h
    by_cases hc : c = 32
    · subst hc
      simp only [token_starts, if_true] at h
      obtain ⟨l1, b, l2, h1, h2, h3, h4⟩ := ih 0 (i + 1) m h
      refine ⟨32 :: l1, b, l2, by rw [h1]; rfl, ?_, h3, ?_⟩
      · simp only [token_starts, if_true]; exact h2
      · simp only [last_seen, space_to_nul, if_true]; exact h4
    · by_cases hp : prev = 0
      · simp only [token_starts, hc, if_false, hp, if_true, List.length_cons] at h
        cases m with
        | zero =>
          exact ⟨[], c, l, rfl, by simp [token_starts], hc, by simp [last_seen, hp]⟩
        | succ m =>
          obtain ⟨l1, b, l2, h1, h2, h3, h4⟩ := ih c (i + 1) m (by omega)
          refine ⟨c :: l1, b, l2, by rw [h1]; rfl, ?_, h3, ?_⟩
          · simp only [token_starts, hc, if_false, hp, if_true, List.length_cons, h2]
          · simp only [last_seen, space_to_nul, hc, if_false]; exact h4
      · simp only [token_starts, hc, if_false, hp] at h
        obtain ⟨l1, b, l2, h1, h2, h3, h4⟩ := ih c (i + 1) m h
        refine ⟨c :: l1, b, l2, by rw [h1]; rfl, ?_, h3, ?_⟩
        · simp only [token_starts, hc, if_false, hp]; exact h2
        · simp only [last_seen, space_to_nul, hc, if_false]; exact h4

theorem write_slots_ge : ∀ (xs : List Nat) (argv : Nat → Nat) (k j : Nat),
    k + xs.length ≤ j → write_slots argv k xs j = argv j := by
  intro xs
  induction xs with
  | nil => intro argv k j _; rfl
  | cons x xs ih =>
    intro argv k j h
    simp only [List.length_cons] at h
    simp only [write_slots]
    rw [ih _ (k + 1) j (by omega)]
    have : j ≠ k := by omega
    simp [this]

/-- The tokenizer loop up to the ninth token start: the bytes before it are processed as
usual, at the ninth start the loop is left and the bytes from there on stay as they are. -/
theorem argc_loop_break (b : Nat) (t : List Nat) (m : Nat) (hm : 0 < m) (hb : b ≠ 32) :
    ∀ (l1 pre : List Nat) (prev : Nat) (argv : Nat → Nat) (n : Nat),
    n + (token_starts prev l1 (pre.length + 1)).length = 8 → last_seen prev l1 = 0 →
    argc_loop (l1.length + m) (pre.length + 1) ⟨pre ++ prev :: (l1 ++ b :: t), argv, n⟩
      = ⟨pre ++ prev :: (l1.map space_to_nul ++ b :: t),
          write_slots argv n (token_starts prev l1 (pre.length + 1)), 8⟩ := by
  intro l1
  induction l1 with
  | nil =>
    intro pre prev argv n hn hlast
    simp only [token_starts, List.length_nil, Nat.add_zero] at hn
    simp only [last_seen] at hlast
    subst hn
    subst hlast
    obtain ⟨k, rfl⟩ : ∃ k, m = k + 1 := ⟨m - 1, by omega⟩
    have hidx : (pre ++ 0 :: b :: t).getD (pre.length + 1) 0 = b := by
      have := getD_append_cons (pre ++ [0]) b t
      simpa using this
    have hprev : (pre ++ 0 :: b :: t).getD pre.length 0 = 0 := getD_append_cons pre 0 _
    simp only [List.length_nil, Nat.zero_add, List.nil_append, List.map_nil, argc_loop,
      is_argc_start_found, Nat.add_one_ne_zero, if_false, hidx, Nat.add_sub_cancel, hprev,
      CHARACTER_SPACE, CMDLINE_MAX_ARGS, hb, if_true, token_starts, write_slots]
    simp
  | cons c l ih =>
    intro pre prev argv n hn hlast
    have hcount : (c :: l).length + m = (l.length + m) + 1 := by
      simp only [List.length_cons]; omega
    have hidx : (pre ++ prev :: (c :: l ++ b :: t)).getD (pre.length + 1) 0 = c := by
      have := getD_append_cons (pre ++ [prev]) c (l ++ b :: t)
      simpa using this
    have hprev : (pre ++ prev :: (c :: l ++ b :: t)).getD pre.length 0 = prev :=
      getD_append_cons pre prev _
    have hset : (pre ++ prev :: (c :: l ++ b :: t)).set (pre.length + 1) 0
        = (pre ++ [prev]) ++ 0 :: (l ++ b :: t) := by
      simp
    have hshift : pre ++ prev :: (c :: l ++ b :: t)
        = (pre ++ [prev]) ++ c :: (l ++ b :: t) := by
      simp
    have hlen : (pre ++ [prev]).length + 1 = pre.length + 1 + 1 := by simp
    rw [hcount]
    simp only [argc_loop, is_argc_start_found, Nat.add_one_ne_zero, if_false,
      hidx, Nat.add_sub_cancel, hprev, CHARACTER_SPACE, CMDLINE_MAX_ARGS]
    by_cases hc : c = 32
    · subst hc
      simp only [if_true, Bool.false_eq_true, if_false, hset]
      simp only [token_starts, if_true] at hn ⊢
      simp only [last_seen, space_to_nul, if_true] at hlast
      have := ih (pre ++ [prev]) 0 argv n (by rw [hlen]; exact hn) hlast
      rw [hlen] at this
      rw [this]
      simp [space_to_nul]
    · simp only [hc, if_false]
      simp only [last_seen, space_to_nul, hc, if_false] at hlast
      by_cases hp : prev = 0
      · simp only [token_starts, hc, if_false, hp, if_true, List.length_cons] at hn ⊢
        have hn8 : ¬ (n ≥ 8) := by omega
        simp only [hn8, if_false]
        have hmod : (n + 1) % 256 = n + 1 := by omega
        rw [hmod]
        have hshift0 : pre ++ 0 :: (c :: l ++ b :: t)
            = (pre ++ [0]) ++ c :: (l ++ b :: t) := by
          simp
        have hlen0 : (pre ++ [0]).length + 1 = pre.length + 1 + 1 := by simp
        rw [hshift0]
        have := ih (pre ++ [0]) c (fun j => if j = n then pre.length + 1 else argv j) (n + 1)
          (by rw [hlen0]; omega) hlast
        rw [hlen0] at this
        rw [this]
        simp [space_to_nul, hc, write_slots]
      · simp only [token_starts, hc, if_false, hp] at hn ⊢
        simp only [Bool.false_eq_true, if_false]
        rw [hshift]
        have := ih (pre ++ [prev]) c argv n (by rw [hlen]; exact hn) hlast
        rw [hlen] at this
        rw [this]
        simp [space_to_nul, hc]

theorem argc_loop_first (k : Nat) (buf : List Nat) (argv : Nat → Nat) :
    argc_loop (k + 1) 0 ⟨buf, argv, 0⟩
      = argc_loop k 1 ⟨buf, fun j => if j = 0 then 0 else argv j, 1⟩ := by
  simp only [argc_loop, is_argc_start_found, if_true, CMDLINE_MAX_ARGS]
  have e8 : ¬ ((0 : Nat) ≥ 8) := by omega
  simp only [e8, if_false, Nat.zero_add, Nat.reduceMod]

/-- Closed form of the tokenizer loop on a line whose ninth word starts with `b`, right
after the space that ends the part `b0 :: l1` holding the first eight words. -/
theorem argc_loop_long_line (b0 : Nat) (l1 : List Nat) (b : Nat) (l2 rest : List Nat)
    (argv : Nat → Nat) (hb : b ≠ 32) (h7 : (token_starts b0 l1 1).length = 7) :
    argc_loop (b0 :: (l1 ++ 32 :: b :: l2)).length 0
        ⟨b0 :: (l1 ++ 32 :: b :: l2) ++ 0 :: rest, argv, 0⟩
      = ⟨b0 :: (l1.map space_to_nul ++ 0 :: (b :: l2 ++ 0 :: rest)),
          write_slots argv 0 (0 :: token_starts b0 l1 1), 8⟩ := by
  have hts : token_starts b0 (l1 ++ [32]) 1 = token_starts b0 l1 1 := by
    rw [token_starts_append]
    simp [token_starts]
  have hbr := argc_loop_break b (l2 ++ 0 :: rest) (l2.length + 1) (by omega) hb
    (l1 ++ [32]) [] b0 (fun j => if j = 0 then 0 else argv j) 1
    (by simp only [List.length_nil, Nat.zero_add]; rw [hts, h7])
    (last_seen_concat 32 l1 b0)
  simp only [List.length_nil, Nat.zero_add, List.nil_append] at hbr
  rw [hts] at hbr
  have hcount : (b0 :: (l1 ++ 32 :: b :: l2)).length
      = ((l1 ++ [32]).length + (l2.length + 1)) + 1 := by
    simp only [List.length_cons, List.length_append, List.length_nil]
    omega
  have hbuf : b0 :: (l1 ++ 32 :: b :: l2) ++ 0 :: rest
      = b0 :: ((l1 ++ [32]) ++ b :: (l2 ++ 0 :: rest)) := by
    simp
  rw [hcount, hbuf, argc_loop_first, hbr]
  simp [space_to_nul, write_slots]

/-- A part of a NUL-free line that the tokenizer leaves on a zero ends with a space. -/
theorem ends_with_space (prev : Nat) (l : List Nat) (hp : prev ≠ 0) (h0 : 0 ∉ l)
    (h : last_seen prev l = 0) : ∃ l1, l = l1 ++ [32] := by
  rcases List.eq_nil_or_concat l with hl | ⟨l1, c, hl⟩
  · subst hl
    exact absurd h hp
  · rw [List.concat_eq_append] at hl
    subst hl
    rw [last_seen_concat] at h
    have hc0 : c ≠ 0 := fun e => h0 (by simp [e])
    have hc : c = 32 := by
      by_contra hne
      simp [space_to_nul, hne] at h
      exact hc0 h
    subst hc
    exact ⟨l1, rfl⟩

/-- Whatever the buffer holds, the tokenizer loop counts at most eight starts and writes no
argument slot from slot 8 on. -/
theorem argc_loop_high_slots : ∀ (k i : Nat) (st : argc_state), st.argc_counter ≤ 8 →
    (argc_loop k i st).argc_counter ≤ 8 ∧
    ∀ j, 8 ≤ j → (argc_loop k i st).ppcArgv j = st.ppcArgv j := by
  intro k
  induction k with
  | zero => intro i st h8; exact ⟨h8, fun _ _ => rfl⟩
  | succ k ih =>
    intro i st h8
    simp only [argc_loop, CMDLINE_MAX_ARGS]
    split
    · split
      · exact ⟨h8, fun _ _ => rfl⟩
      · rename_i hlt
        have hmod : (st.argc_counter + 1) % 256 = st.argc_counter + 1 := by omega
        have := ih (i + 1)
          { buf := (is_argc_start_found st.buf i).2
            ppcArgv := fun j => if j = st.argc_counter then i else st.ppcArgv j
            argc_counter := (st.argc_counter + 1) % 256 }
          (by simp only [hmod]; omega)
        refine ⟨this.1, ?_⟩
        intro j hj
        rw [this.2 j hj]
        have hne : j ≠ st.argc_counter := by omega
        simp only [hne, if_false]
    · exact ih _ _ h8

/-! ## C17 -/

/-- C17: on a completed line without NUL byte, whose first byte is not a space and which has
more than `CMDLINE_MAX_ARGS` words, the tokenizer returns exactly 8; the first eight
argument slots read as NUL-terminated strings are the first eight words, and no slot from
slot 8 on is written. An initialized session then dispatches the line with `argc = 8`: the
status is `BAD CMD` or what a handler of the table returned when called with `argc = 8`.
For any buffer content at all the tokenizer returns at most 8 and writes no slot from slot 8
on. -/
theorem tokenizer_caps_at_max_args (c : cmdline_t) (line rest : List Nat)
    (hcur : c.receive_char_index = line.length)
    (hnul : 0 ∉ line)
    (hfirst : line.head? ≠ some CHARACTER_SPACE)
    (hmany : CMDLINE_MAX_ARGS < (words line).length) :
    (get_argc_count_from_cmd_msg c (line ++ 0 :: rest)).1 = CMDLINE_MAX_ARGS ∧
    argv_strings CMDLINE_MAX_ARGS
        (get_argc_count_from_cmd_msg c (line ++ 0 :: rest)).2.1.ppcArgv
        (get_argc_count_from_cmd_msg c (line ++ 0 :: rest)).2.2
      = (words line).take CMDLINE_MAX_ARGS ∧
    (∀ j, CMDLINE_MAX_ARGS ≤ j →
      (get_argc_count_from_cmd_msg c (line ++ 0 :: rest)).2.1.ppcArgv j = c.ppcArgv j) ∧
    (∀ (c2 : cmdline_t) (buf : List Nat),
      (get_argc_count_from_cmd_msg c2 buf).1 ≤ CMDLINE_MAX_ARGS ∧
      ∀ j, CMDLINE_MAX_ARGS ≤ j →
        (get_argc_count_from_cmd_msg c2 buf).2.1.ppcArgv j = c2.ppcArgv j) ∧
    (c.initialized = true → ∀ env : Env, env.buf = line ++ 0 :: rest →
      (cmdline_process c env).1
        = (execute_matching_cmd_entry_return_status
            (get_argc_count_from_cmd_msg c (line ++ 0 :: rest)).2.1 CMDLINE_MAX_ARGS
            { env with buf := (get_argc_count_from_cmd_msg c (line ++ 0 :: rest)).2.2 }).1 ∧
      ((cmdline_process c env).1 = CMDLINE_BAD_CMD ∨
        ∃ table e, c.config.cmdline_entry = some table ∧ e ∈ table ∧
          (cmdline_process c env).1
            = (e.pfnCmd CMDLINE_MAX_ARGS
                (get_argc_count_from_cmd_msg c (line ++ 0 :: rest)).2.1.ppcArgv
                (get_argc_count_from_cmd_msg c (line ++ 0 :: rest)).2.2).1)) := by
  cases line with
  | nil => simp [words_nil] at hmany
  | cons b0 l =>
    have hb0 : b0 ≠ 32 := by
      intro h; apply hfirst; simp [h, CHARACTER_SPACE]
    have hb00 : b0 ≠ 0 := fun h => hnul (by simp [h])
    have hl0 : 0 ∉ l := fun h => hnul (by simp [h])
    have hlen := token_starts_length b0 l rest hb0 hnul
    have h7 : 7 < (token_starts b0 l 1).length := by
      simp only [CMDLINE_MAX_ARGS] at hmany; omega
    obtain ⟨l1, b, l2, hl, hc7, hb, hlast⟩ := split_at_token_start l b0 1 7 h7
    have h0l1 : 0 ∉ l1 := fun h => hl0 (by rw [hl]; simp [h])
    obtain ⟨l1', hl1⟩ := ends_with_space b0 l1 hb00 h0l1 hlast
    subst hl1
    have h0l1' : 0 ∉ l1' := fun h => h0l1 (by simp [h])
    have hts : token_starts b0 (l1' ++ [32]) 1 = token_starts b0 l1' 1 := by
      rw [token_starts_append]
      simp [token_starts]
    rw [hts] at hc7
    have hl' : l = l1' ++ 32 :: b :: l2 := by rw [hl]; simp
    subst hl'
    have hloop := argc_loop_long_line b0 l1' b l2 rest c.ppcArgv hb hc7
    have hT : get_argc_count_from_cmd_msg c ((b0 :: (l1' ++ 32 :: b :: l2)) ++ 0 :: rest)
        = (8, { c with ppcArgv := write_slots c.ppcArgv 0 (0 :: token_starts b0 l1' 1) },
            b0 :: (l1'.map space_to_nul ++ 0 :: (b :: l2 ++ 0 :: rest))) := by
      simp only [get_argc_count_from_cmd_msg, hcur, hloop]
    have hw8 : (words (b0 :: l1')).length = 8 := by
      rw [token_starts_length b0 l1' rest hb0
        (fun h => by rcases List.mem_cons.mp h with h | h
                     · exact hb00 h.symm
                     · exact h0l1' h), hc7]
    have hwords : (words (b0 :: (l1' ++ 32 :: b :: l2))).take 8 = words (b0 :: l1') := by
      have : b0 :: (l1' ++ 32 :: b :: l2) = (b0 :: l1') ++ 32 :: (b :: l2) := by simp
      rw [this, words_append_space]
      exact List.take_left' hw8
    have hstr := token_starts_strings (b0 :: (l1'.map space_to_nul ++ 0 :: (b :: l2 ++ 0 :: rest)))
      (b :: l2 ++ 0 :: rest) l1' b0 1 h0l1' (by simp)
    rw [if_neg hb00] at hstr
    have hargs : argv_strings 8 (write_slots c.ppcArgv 0 (0 :: token_starts b0 l1' 1))
        (b0 :: (l1'.map space_to_nul ++ 0 :: (b :: l2 ++ 0 :: rest))) = words (b0 :: l1') := by
      have e : 8 = (0 :: token_starts b0 l1' 1).length := by
        simp only [List.length_cons, hc7]
      rw [e, argv_strings_write_slots, List.map_cons, hstr, words_cons b0 l1' hb0]
      congr 1
      unfold c_str
      have := takeWhile_space_to_nul (b :: l2 ++ 0 :: rest) (b0 :: l1')
        (fun h => by rcases List.mem_cons.mp h with h | h
                     · exact hb00 h.symm
                     · exact h0l1' h)
      simp only [List.map_cons, List.cons_append] at this
      have hs : space_to_nul b0 = b0 := by simp [space_to_nul, hb0]
      rw [hs] at this
      simp only [List.drop_zero, List.cons_append]
      rw [this, List.takeWhile_cons]
      simp [hb0]
    rw [hT]
    simp only [CMDLINE_MAX_ARGS]
    refine ⟨trivial, ?_, ?_, ?_, ?_⟩
    · rw [hargs, hwords]
    · intro j hj
      exact write_slots_ge _ _ 0 j (by simp only [List.length_cons, hc7]; omega)
    · intro c2 buf
      simp only [get_argc_count_from_cmd_msg]
      exact argc_loop_high_slots _ _ _ (by simp)
    · intro hinit env hbuf
      have hP : (cmdline_process c env).1
          = (execute_matching_cmd_entry_return_status
              { c with ppcArgv := write_slots c.ppcArgv 0 (0 :: token_starts b0 l1' 1) } 8
              { env with buf :=
                  b0 :: (l1'.map space_to_nul ++ 0 :: (b :: l2 ++ 0 :: rest)) }).1 := by
        simp only [cmdline_process, hinit, Bool.true_eq_false, if_false, hbuf, hT]
        simp
      refine ⟨hP, ?_⟩
      rw [hP]
      simp only [execute_matching_cmd_entry_return_status]
      cases ht : c.config.cmdline_entry with
      | none => exact Or.inl (by simp [scan_cmd_entries])
      | some table =>
        simp only [Option.getD_some]
        rcases scan_cmd_entries_status
          { c with ppcArgv := write_slots c.ppcArgv 0 (0 :: token_starts b0 l1' 1) } 8
          { env with buf := b0 :: (l1'.map space_to_nul ++ 0 :: (b :: l2 ++ 0 :: rest)) }
          table 0 with h | ⟨e, he, h⟩
        · exact Or.inl h
        · exact Or.inr ⟨table, e, rfl, he, h⟩

theorem tokenizer_caps_at_max_args_witness :
    (get_argc_count_from_cmd_msg long_line_session
      (str "c 2 3 4 5 6 7 8 9 a" ++ 0 :: List.replicate 12 0)).1 = 8 ∧
    argv_strings 8
        (get_argc_count_from_cmd_msg long_line_session
          (str "c 2 3 4 5 6 7 8 9 a" ++ 0 :: List.replicate 12 0)).2.1.ppcArgv
        (get_argc_count_from_cmd_msg long_line_session
          (str "c 2 3 4 5 6 7 8 9 a" ++ 0 :: List.replicate 12 0)).2.2
      = [[99], [50], [51], [52], [53], [54], [55], [56]] := by
  have h := tokenizer_caps_at_max_args long_line_session (str "c 2 3 4 5 6 7 8 9 a")
    (List.replicate 12 0) (by decide) (by decide) (by decide) (by decide)
  have e : (words (str "c 2 3 4 5 6 7 8 9 a")).take CMDLINE_MAX_ARGS
      = [[99], [50], [51], [52], [53], [54], [55], [56]] := by decide
  obtain ⟨h1, h2, _⟩ := h
  rw [e] at h2
  exact ⟨h1, h2⟩

/-! ## Dispatch of a completed full line -/

theorem eq_append_zero_drop (l w : List Nat) (h1 : l.take w.length = w)
    (h2 : l[w.length]? = some 0) : l = w ++ 0 :: l.drop (w.length + 1) := by
  have hlt : w.length < l.length := by
    by_contra hge
    rw [List.getElem?_eq_none (by omega)] at h2
    cases h2
  have hget : l[w.length] = 0 := by
    rw [List.getElem?_eq_getElem hlt] at h2
    exact Option.some.inj h2
  have hd : l.drop w.length = 0 :: l.drop (w.length + 1) := by
    rw [List.drop_eq_getElem_cons hlt, hget]
  calc l = l.take w.length ++ l.drop w.length := (List.take_append_drop _ _).symm
    _ = w ++ 0 :: l.drop (w.length + 1) := by rw [h1, hd]

theorem argc_loop_counter_mono : ∀ (k i : Nat) (st : argc_state), st.argc_counter ≤ 8 →
    st.argc_counter ≤ (argc_loop k i st).argc_counter := by
  intro k
  induction k with
  | zero => intro i st _; exact Nat.le_refl _
  | succ k ih =>
    intro i st h8
    simp only [argc_loop, CMDLINE_MAX_ARGS]
    split
    · split
      · exact Nat.le_refl _
      · rename_i hlt
        have hmod : (st.argc_counter + 1) % 256 = st.argc_counter + 1 := by omega
        have := ih (i + 1)
          { buf := (is_argc_start_found st.buf i).2
            ppcArgv := fun j => if j = st.argc_counter then i else st.ppcArgv j
            argc_counter := (st.argc_counter + 1) % 256 }
          (by simp only [hmod]; omega)
        have h2 : st.argc_counter ≤ (st.argc_counter + 1) % 256 := by omega
        exact Nat.le_trans h2 this
    · exact ih (i + 1) { st with buf := (is_argc_start_found st.buf i).2 } h8

/-- A line of at least one byte always yields at least one argument. -/
theorem argc_nonzero (c : cmdline_t) (buf : List Nat) (h : 0 < c.receive_char_index) :
    (get_argc_count_from_cmd_msg c buf).1 ≠ 0 := by
  obtain ⟨k, hk⟩ : ∃ k, c.receive_char_index = k + 1 := ⟨c.receive_char_index - 1, by omega⟩
  simp only [get_argc_count_from_cmd_msg, hk]
  rw [argc_loop_first]
  have := argc_loop_counter_mono k 1
    ⟨buf, fun j => if j = 0 then 0 else c.ppcArgv j, 1⟩ (by simp)
  simp only at this
  omega

/-- The tokenizer on a completed line without NUL byte, not starting with a space and with at
most eight words: the count is the number of words and the arguments are the words. -/
theorem tokenizer_words_of_line (c : cmdline_t) (line rest : List Nat)
    (hcur : c.receive_char_index = line.length)
    (hnul : 0 ∉ line)
    (hfirst : line.head? ≠ some CHARACTER_SPACE)
    (hmax : (words line).length ≤ CMDLINE_MAX_ARGS) :
    (get_argc_count_from_cmd_msg c (line ++ 0 :: rest)).1 = (words line).length ∧
    argv_strings (get_argc_count_from_cmd_msg c (line ++ 0 :: rest)).1
        (get_argc_count_from_cmd_msg c (line ++ 0 :: rest)).2.1.ppcArgv
        (get_argc_count_from_cmd_msg c (line ++ 0 :: rest)).2.2
      = words line := by
  cases line with
  | nil =>
    simp only [get_argc_count_from_cmd_msg, hcur, List.length_nil, argc_loop, words_nil]
    simp [argv_strings]
  | cons b l =>
    have hb : b ≠ 32 := by
      intro h; apply hfirst; simp [h, CHARACTER_SPACE]
    have hb0 : b ≠ 0 := fun h => hnul (by simp [h])
    have hl : 0 ∉ l := fun h => hnul (by simp [h])
    have hloop := argc_loop_line b l rest c.ppcArgv hb hnul hmax
    have hlen := token_starts_length b l rest hb hnul
    have hstr := token_starts_strings (b :: (l.map space_to_nul ++ 0 :: rest)) rest l b 1 hl
      (by simp)
    rw [if_neg hb0] at hstr
    simp only [get_argc_count_from_cmd_msg, hcur, List.length_cons, hloop]
    refine ⟨hlen.symm, ?_⟩
    have e : 1 + (token_starts b l 1).length = (0 :: token_starts b l 1).length := by
      simp; omega
    rw [e, argv_strings_write_slots, List.map_cons, hstr, words_cons b l hb]
    congr 1
    unfold c_str
    have := takeWhile_space_to_nul rest (b :: l) hnul
    simp only [List.map_cons, List.cons_append] at this
    have hs : space_to_nul b = b := by simp [space_to_nul, hb]
    rw [hs] at this
    rw [List.drop_zero, this, List.takeWhile_cons]
    simp [hb]

/-- What a call writes and logs once the receive loop has completed a line. -/
theorem process_msg_after_editor (s s2 : cmdline_t) (env env2 : Env)
    (hinit : s.initialized = true)
    (hR : process_rx_msg_complete s env = (true, s2, env2)) :
    (cmdline_process_msg (some s) env).2.2.calls = (cmdline_process s2 env2).2.2.calls ∧
    (cmdline_process_msg (some s) env).2.2.tx
      = (cmdline_process s2 env2).2.2.tx
        ++ cmdline_status_msg
            (if (cmdline_process s2 env2).1 ≥ CMDLINE_TOTAL_STATUS then CMDLINE_BAD_CMD
             else (cmdline_process s2 env2).1)
        ++ [CHARACTER_RETURN, CHARACTER_NEWLINE] := by
  have hdone : (process_rx_msg_complete s env).1 = true := by rw [hR]
  rw [process_msg_complete s env hinit hdone, hR]
  simp only [clear_receive_buffer]
  have hs := send_status_env (cmdline_process s2 env2).1 (cmdline_process s2 env2).2.2
  exact ⟨hs.2.2.2.2, hs.1⟩

/-- The receive loop on a full line of ordinary bytes and one more byte, as one equation. -/
theorem rx_full_line_result (s : cmdline_t) (env : Env) (w : List Nat) (b : Nat)
    (rest : List Nat)
    (hcur : s.receive_char_index = 0)
    (hsz : s.config.receive_buffer_size < 65536)
    (hbuf : s.config.receive_buffer_size ≤ env.buf.length)
    (hw : ∀ x ∈ w, ordinary s x)
    (hlen : w.length + 1 = s.config.receive_buffer_size)
    (hrx : env.rx = w ++ b :: rest) :
    process_rx_msg_complete s env
      = (true, { s with receive_char_index := w.length },
          { env with buf := full_line_buf env w, rx := rest, tx := env.tx ++ w ++ [b] }) := by
  obtain ⟨h1, h2, h3, h4, h5, h6⟩ := rx_loop_fill s env.buf [] w b rest hsz hcur hbuf hw hlen
  have hb := (rx_loop_bounds s.config.receive_buffer_size (by omega) hsz (w ++ b :: rest) s
    env.buf [] rfl (by omega)).2
  have hses := rx_loop_session (w ++ b :: rest) s env.buf []
  have hbufeq : (rx_loop s env.buf [] (w ++ b :: rest)).buf = full_line_buf env w := by
    rw [eq_append_zero_drop _ w h5 h6]
    unfold full_line_buf
    rw [hlen, hb]
  simp only [process_rx_msg_complete, hrx]
  rw [h1, h2, h3, hbufeq, hses, h4]
  simp

/-- Tokenizer and dispatcher as run by `cmdline_process` on a line of at least one byte. -/
theorem cmdline_process_dispatch (c : cmdline_t) (env : Env)
    (hinit : c.initialized = true) (hpos : 0 < c.receive_char_index) :
    (cmdline_process c env).1
      = (execute_matching_cmd_entry_return_status (get_argc_count_from_cmd_msg c env.buf).2.1
          (get_argc_count_from_cmd_msg c env.buf).1
          { env with buf := (get_argc_count_from_cmd_msg c env.buf).2.2 }).1 ∧
    (cmdline_process c env).2.2
      = (execute_matching_cmd_entry_return_status (get_argc_count_from_cmd_msg c env.buf).2.1
          (get_argc_count_from_cmd_msg c env.buf).1
          { env with buf := (get_argc_count_from_cmd_msg c env.buf).2.2 }).2 := by
  have hnz := argc_nonzero c env.buf hpos
  simp only [cmdline_process, hinit, Bool.true_eq_false, if_false, hnz, and_self]

/-- A first call whose receive loop completed the full line `w` on the byte `b`: its handler
log and its output are those of the dispatcher run on the tokenized line, followed by the
status reply. -/
theorem full_line_dispatch (s : cmdline_t) (env : Env) (w : List Nat) (b : Nat)
    (rest : List Nat)
    (hinit : s.initialized = true)
    (hne : w ≠ [])
    (hR : process_rx_msg_complete s env
      = (true, { s with receive_char_index := w.length },
          { env with buf := full_line_buf env w, rx := rest, tx := env.tx ++ w ++ [b] })) :
    (tokenized s env w).1 ≠ 0 ∧
    (cmdline_process_msg (some s) env).2.2.calls = (dispatched s env w b rest).2.calls ∧
    (cmdline_process_msg (some s) env).2.2.tx
      = (dispatched s env w b rest).2.tx
        ++ cmdline_status_msg
            (if (dispatched s env w b rest).1 ≥ CMDLINE_TOTAL_STATUS then CMDLINE_BAD_CMD
             else (dispatched s env w b rest).1)
        ++ [CHARACTER_RETURN, CHARACTER_NEWLINE] := by
  have hpos : 0 < w.length := List.length_pos.mpr hne
  have hafter := process_msg_after_editor s _ env _ hinit hR
  have hdisp := cmdline_process_dispatch { s with receive_char_index := w.length }
    { env with buf := full_line_buf env w, rx := rest, tx := env.tx ++ w ++ [b] } hinit hpos
  have hnz : (tokenized s env w).1 ≠ 0 :=
    argc_nonzero { s with receive_char_index := w.length } (full_line_buf env w) hpos
  refine ⟨hnz, ?_, ?_⟩
  · rw [hafter.1, hdisp.2]; rfl
  · rw [hafter.2, hdisp.2, hdisp.1]; rfl

/-- The two outcomes of the dispatcher on the tokenized full line. -/
theorem dispatched_cases (s : cmdline_t) (env : Env) (w : List Nat) (b : Nat)
    (rest : List Nat) (table : List cmdline_entry_t)
    (htable : s.config.cmdline_entry = some table) :
    ((∀ e ∈ entries_before_sentinel table, ∀ name, e.pcCmd = some name →
        ¬ name_matches name (tokenized s env w).2.1 (tokenized s env w).2.2) →
      dispatched s env w b rest
        = (CMDLINE_BAD_CMD,
            { env with buf := (tokenized s env w).2.2, rx := rest,
                       tx := env.tx ++ w ++ [b] })) ∧
    (∀ (i : Nat) (e : cmdline_entry_t) (name : List Nat),
      (entries_before_sentinel table)[i]? = some e → e.pcCmd = some name →
      name_matches name (tokenized s env w).2.1 (tokenized s env w).2.2 →
      (∀ j e2 name2, j < i → (entries_before_sentinel table)[j]? = some e2 →
        e2.pcCmd = some name2 →
        ¬ name_matches name2 (tokenized s env w).2.1 (tokenized s env w).2.2) →
      dispatched s env w b rest
        = ((e.pfnCmd (tokenized s env w).1 (tokenized s env w).2.1.ppcArgv
              (tokenized s env w).2.2).1,
            { buf := (tokenized s env w).2.2, rx := rest,
              tx := env.tx ++ w ++ [b]
                ++ (e.pfnCmd (tokenized s env w).1 (tokenized s env w).2.1.ppcArgv
                      (tokenized s env w).2.2).2,
              calls := env.calls
                ++ [⟨i, (tokenized s env w).1, argv_slots (tokenized s env w).2.1,
                      (tokenized s env w).2.2⟩] })) := by
  have hcfg : (tokenized s env w).2.1.config.cmdline_entry = some table := htable
  constructor
  · intro hno
    simp only [dispatched, execute_matching_cmd_entry_return_status, hcfg, Option.getD_some]
    exact scan_no_match _ _ _ table 0 hno
  · intro i e name hi hn hm hfirst
    simp only [dispatched, execute_matching_cmd_entry_return_status, hcfg, Option.getD_some]
    rw [scan_first_match _ _ _ table 0 i e name hi hn hm hfirst, Nat.zero_add]

/-! ## C19 -/

/-- C19: ordinary bytes `w ++ b :: rest` with `w` of length `capacity - 1` fed to an empty
initialized session. The first call completes on `b`: the receive loop leaves the line `w`
in the buffer (cursor `capacity - 1`, terminator in the last slot), `b` is echoed and stored
nowhere. That line is tokenized and dispatched: the handler log and the output of the call
are those of the dispatcher run on the tokenized line `w`, followed by one status reply; so
with no matching table entry the reply is `BAD CMD` and no handler runs, and otherwise
exactly the first matching entry is invoked with the arguments of `w` and its status is
replied; for a line of at most eight words without NUL and leading space those arguments
are the words of `w`. `rest` stays pending while the buffer is cleared and the cursor reset.
The next call accumulates `rest` from slot 0 as a new line: it stores its first
`capacity - 1` bytes and completes again exactly when `rest` has at least `capacity` bytes. -/
theorem overlong_input_is_split (s : cmdline_t) (env : Env) (w : List Nat) (b : Nat)
    (rest : List Nat)
    (hinit : s.initialized = true)
    (hcur : s.receive_char_index = 0)
    (hsz : s.config.receive_buffer_size < 65536)
    (hbuf : s.config.receive_buffer_size ≤ env.buf.length)
    (hord : ∀ x ∈ w ++ b :: rest, ordinary s x)
    (hlen : w.length + 1 = s.config.receive_buffer_size)
    (hrx : env.rx = w ++ b :: rest) :
    (process_rx_msg_complete s env).1 = true ∧
    (process_rx_msg_complete s env).2.1.receive_char_index = w.length ∧
    (process_rx_msg_complete s env).2.2.buf.take w.length = w ∧
    (process_rx_msg_complete s env).2.2.buf[w.length]? = some 0 ∧
    (process_rx_msg_complete s env).2.2.tx = env.tx ++ w ++ [b] ∧
    (cmdline_process_msg (some s) env).2.2.rx = rest ∧
    (∀ i, i < s.config.receive_buffer_size →
      (cmdline_process_msg (some s) env).2.2.buf[i]? = some 0) ∧
    (∃ s1, (cmdline_process_msg (some s) env).2.1 = some s1 ∧
      s1.receive_char_index = 0 ∧
      (process_rx_msg_complete s1 (cmdline_process_msg (some s) env).2.2).2.1.receive_char_index
        = min rest.length w.length ∧
      (process_rx_msg_complete s1 (cmdline_process_msg (some s) env).2.2).2.2.buf.take
          (min rest.length w.length)
        = rest.take w.length ∧
      ((process_rx_msg_complete s1 (cmdline_process_msg (some s) env).2.2).1 = true ↔
        s.config.receive_buffer_size ≤ rest.length)) ∧
    process_rx_msg_complete s env
      = (true, { s with receive_char_index := w.length },
          { env with buf := full_line_buf env w, rx := rest, tx := env.tx ++ w ++ [b] }) ∧
    (w ≠ [] →
      (tokenized s env w).1 ≠ 0 ∧
      (cmdline_process_msg (some s) env).2.2.calls = (dispatched s env w b rest).2.calls ∧
      (cmdline_process_msg (some s) env).2.2.tx
        = (dispatched s env w b rest).2.tx
          ++ cmdline_status_msg
              (if (dispatched s env w b rest).1 ≥ CMDLINE_TOTAL_STATUS then CMDLINE_BAD_CMD
               else (dispatched s env w b rest).1)
          ++ [CHARACTER_RETURN, CHARACTER_NEWLINE]) ∧
    (∀ table, s.config.cmdline_entry = some table → w ≠ [] →
      ((∀ e ∈ entries_before_sentinel table, ∀ name, e.pcCmd = some name →
          ¬ name_matches name (tokenized s env w).2.1 (tokenized s env w).2.2) →
        (cmdline_process_msg (some s) env).2.2.calls = env.calls ∧
        (cmdline_process_msg (some s) env).2.2.tx
          = env.tx ++ w ++ [b] ++ str "BAD CMD" ++ [CHARACTER_RETURN, CHARACTER_NEWLINE]) ∧
      (∀ (i : Nat) (e : cmdline_entry_t) (name : List Nat),
        (entries_before_sentinel table)[i]? = some e → e.pcCmd = some name →
        name_matches name (tokenized s env w).2.1 (tokenized s env w).2.2 →
        (∀ j e2 name2, j < i → (entries_before_sentinel table)[j]? = some e2 →
          e2.pcCmd = some name2 →
          ¬ name_matches name2 (tokenized s env w).2.1 (tokenized s env w).2.2) →
        (cmdline_process_msg (some s) env).2.2.calls
          = env.calls ++ [⟨i, (tokenized s env w).1, argv_slots (tokenized s env w).2.1,
              (tokenized s env w).2.2⟩] ∧
        (cmdline_process_msg (some s) env).2.2.tx
          = env.tx ++ w ++ [b]
            ++ (e.pfnCmd (tokenized s env w).1 (tokenized s env w).2.1.ppcArgv
                  (tokenized s env w).2.2).2
            ++ cmdline_status_msg
                (if (e.pfnCmd (tokenized s env w).1 (tokenized s env w).2.1.ppcArgv
                      (tokenized s env w).2.2).1 ≥ CMDLINE_TOTAL_STATUS
                 then CMDLINE_BAD_CMD
                 else (e.pfnCmd (tokenized s env w).1 (tokenized s env w).2.1.ppcArgv
                      (tokenized s env w).2.2).1)
            ++ [CHARACTER_RETURN, CHARACTER_NEWLINE])) ∧
    (0 ∉ w → w.head? ≠ some CHARACTER_SPACE → (words w).length ≤ CMDLINE_MAX_ARGS →
      (tokenized s env w).1 = (words w).length ∧
      argv_strings (tokenized s env w).1 (tokenized s env w).2.1.ppcArgv
        (tokenized s env w).2.2 = words w) := by
  have hw : ∀ x ∈ w, ordinary s x := fun x hx => hord x (by simp [hx])
  obtain ⟨h1, h2, h3, h4, h5, h6⟩ := rx_loop_fill s env.buf [] w b rest hsz hcur hbuf hw hlen
  have hR := rx_full_line_result s env w b rest hcur hsz hbuf hw hlen hrx
  have hdone : (process_rx_msg_complete s env).1 = true := by
    simp only [process_rx_msg_complete, hrx]; exact h1
  have hfr := cmdline_process_frame (process_rx_msg_complete s env).2.1
    (process_rx_msg_complete s env).2.2
  have hrx1 : (cmdline_process_msg (some s) env).2.2.rx = rest := by
    rw [process_msg_complete s env hinit hdone]
    simp only [clear_receive_buffer, send_command_line_status]
    rw [hfr.2.2]
    simp only [process_rx_msg_complete, hrx]; exact h2
  obtain ⟨s1, hs1, hc1, he1, hi1, _, hcur1, _⟩ := process_msg_session s env hinit
  obtain ⟨s1b, hs1b, _, _, _, _, hlen1⟩ := process_msg_bounds s.config.receive_buffer_size
    (by omega) hsz s env hinit rfl (by omega)
  have hord1 : ∀ x ∈ rest, ordinary s1 x := by
    intro x hx
    have := hord x (by simp [hx])
    unfold ordinary at this ⊢
    rw [he1, hi1]
    exact this
  have hnew := rx_loop_new_line s1 (cmdline_process_msg (some s) env).2.2.buf [] rest
    (by rw [hc1]; exact hsz) (by rw [hc1]; omega) (hcur1 hdone)
    (by rw [hc1, hlen1]; exact hbuf) hord1
  have hw1 : s1.config.receive_buffer_size - 1 = w.length := by rw [hc1]; omega
  rw [hw1, hc1] at hnew
  refine ⟨hdone, ?_, ?_, ?_, ?_, hrx1, process_msg_cleared s env hinit hbuf hdone,
    ⟨s1, hs1, hcur1 hdone, ?_, ?_, ?_⟩, hR, ?_, ?_, ?_⟩
  · simp only [process_rx_msg_complete, hrx]; exact h4
  · simp only [process_rx_msg_complete, hrx]; exact h5
  · simp only [process_rx_msg_complete, hrx]; exact h6
  · simp only [process_rx_msg_complete, hrx, h3, List.nil_append, List.append_assoc]
  · simp only [process_rx_msg_complete, hrx1]; exact hnew.1
  · simp only [process_rx_msg_complete, hrx1]; exact hnew.2.1
  · simp only [process_rx_msg_complete, hrx1]; exact hnew.2.2
  · intro hne
    exact full_line_dispatch s env w b rest hinit hne hR
  · intro table htable hne
    obtain ⟨_, hcalls, htx⟩ := full_line_dispatch s env w b rest hinit hne hR
    have hcases := dispatched_cases s env w b rest table htable
    constructor
    · intro hno
      rw [hcalls, htx, hcases.1 hno]
      exact ⟨rfl, rfl⟩
    · intro i e name hi hn hm hfirst
      rw [hcalls, htx, hcases.2 i e name hi hn hm hfirst]
      exact ⟨rfl, rfl⟩
  · intro hnul hfirst hmax
    exact tokenizer_words_of_line { s with receive_char_index := w.length } w
      (env.buf.drop (w.length + 1)) rfl hnul hfirst hmax

theorem overlong_input_is_split_witness :
    (cmdline_process_msg (some sample_session) overlong_env).2.2.calls
      = [⟨0, 7, [0, 4, 6, 8, 10, 12, 14, 0, 0],
          [99, 109, 100, 0, 97, 0, 98, 0, 99, 0, 100, 0, 101, 0, 102, 0]⟩] ∧
    (cmdline_process_msg (some sample_session) overlong_env).2.2.tx
      = str "cmd a b c d e f" ++ [120] ++ str "INVALID ARG" ++ [13, 10] ∧
    (cmdline_process_msg (some sample_session) overlong_env).2.2.rx = [121, 122] ∧
    argv_strings 7 (tokenized sample_session overlong_env (str "cmd a b c d e f")).2.1.ppcArgv
        (tokenized sample_session overlong_env (str "cmd a b c d e f")).2.2
      = [str "cmd", [97], [98], [99], [100], [101], [102]] ∧
    ∃ s1, (cmdline_process_msg (some sample_session) overlong_env).2.1 = some s1 ∧
      (process_rx_msg_complete s1
        (cmdline_process_msg (some sample_session) overlong_env).2.2).2.2.buf.take 2
        = [121, 122] := by
  have h := overlong_input_is_split sample_session overlong_env (str "cmd a b c d e f") 120
    [121, 122] rfl rfl (by decide) (by decide) (by decide) (by decide) rfl
  obtain ⟨_, _, _, _, _, h6, _, ⟨s1, hs1, _, _, h10, _⟩, _, _, h11, h12⟩ := h
  have hm := (h11 sample_table rfl (by decide)).2 0 ⟨some (str "cmd"), sample_handler⟩
    (str "cmd") rfl rfl (by decide) (by intro j e2 name2 hj; omega)
  have hwords := h12 (by decide) (by decide) (by decide)
  have e7 : (tokenized sample_session overlong_env (str "cmd a b c d e f")).1 = 7 := by decide
  have hw2 := hwords.2
  rw [e7] at hw2
  exact ⟨hm.1, hm.2, h6, by rw [hw2]; decide, s1, hs1, h10⟩

end Cmdline
